import Mathlib

/-!
Verification of the dintact hot/cold backup reconciliation tool.

Shallow embedding conventions:
* A relative `PurePath` is a list of components (`List String`); the empty
  list is the path referring to the index itself.
* File contents are byte lists (`List Nat`).
* The 128-bit streaming hash is an abstract parameter `hash : List Nat → String`;
  being a function of the byte stream it automatically identifies equal streams,
  which is the only property of xxh3 the source relies on.
* Python exceptions (KeyError, ValueError, assert failures, NotImplementedError)
  are modelled by `Option`: `none` means the call raises.
* Python dicts are association lists with unique keys, insertion ordered:
  assignment of a fresh key appends at the end, assignment of an existing key
  updates in place, `del` removes the entry.
-/

namespace Dintact

/-- Byte content of a file. -/
abbrev Bytes := List Nat

/-- A relative path, as its list of components (`PurePath.parts`). -/
abbrev RPath := List String

/-! ### Association lists (Python dict model) -/

/-- Python `d[k]` lookup. -/
def lookupA (k : String) : List (String × α) → Option α
  | [] => none
  | (a, v) :: t => if a = k then some v else lookupA k t

/-- Python `d[k] = v`: update in place if present, else append at the end. -/
def insertA (k : String) (v : α) : List (String × α) → List (String × α)
  | [] => [(k, v)]
  | (a, w) :: t => if a = k then (a, v) :: t else (a, w) :: insertA k v t

/-- Python `del d[k]`: remove the (unique) entry with key `k`. -/
def eraseA (k : String) : List (String × α) → List (String × α)
  | [] => []
  | (a, w) :: t => if a = k then t else (a, w) :: eraseA k t

@[simp] theorem lookupA_nil (k : String) : lookupA k ([] : List (String × α)) = none := rfl

@[simp] theorem lookupA_cons (k a : String) (v : α) (t : List (String × α)) :
    lookupA k ((a, v) :: t) = if a = k then some v else lookupA k t := rfl

@[simp] theorem insertA_nil (k : String) (v : α) : insertA k v ([] : List (String × α)) = [(k, v)] := rfl

@[simp] theorem insertA_cons (k a : String) (v w : α) (t : List (String × α)) :
    insertA k v ((a, w) :: t) = if a = k then (a, v) :: t else (a, w) :: insertA k v t := rfl

@[simp] theorem eraseA_nil (k : String) : eraseA k ([] : List (String × α)) = [] := rfl

@[simp] theorem eraseA_cons (k a : String) (w : α) (t : List (String × α)) :
    eraseA k ((a, w) :: t) = if a = k then t else (a, w) :: eraseA k t := rfl

/-! ### The tree-shaped index (src/index.py, class Index)

`Index` has two disjoint child maps: `dirs` (name → sub-index) and
`files` (name → checksum). -/

/-- `index.py` `Index`: nested directory nodes with file leaves. -/
inductive Index where
  | node (dirs : List (String × Index)) (files : List (String × String))

/-- The empty in-memory index (`Index()`). -/
def Index.empty : Index := .node [] []

/-- The `dirs` member. -/
def Index.dirs : Index → List (String × Index)
  | .node ds _ => ds

/-- The `files` member. -/
def Index.files : Index → List (String × String)
  | .node _ fs => fs

/-- A value stored in the index: either a checksum string (file leaf) or a
sub-index (directory), mirroring the Python `str | Index` union. -/
inductive Entry where
  | str (s : String)
  | sub (i : Index)

/-- `Index.__len__`: total number of file leaves in the subtree. -/
def lenI : Index → Nat
  | .node [] fs => fs.length
  | .node ((_, i) :: ds) fs => lenI i + lenI (.node ds fs)

@[simp] theorem lenI_nil (fs : List (String × String)) : lenI (.node [] fs) = fs.length := by
  simp [lenI]

@[simp] theorem lenI_cons (d : String) (i : Index) (ds : List (String × Index))
    (fs : List (String × String)) :
    lenI (.node ((d, i) :: ds) fs) = lenI i + lenI (.node ds fs) := by
  simp [lenI]

/-- `Index.__contains__` for a relative path. -/
def memI : Index → RPath → Bool
  | _, [] => true
  | .node ds fs, [k] => (lookupA k fs).isSome || (lookupA k ds).isSome
  | .node ds _, k :: ks => match lookupA k ds with
    | some sub => memI sub ks
    | none => false

/-- `Index.__getitem__`: `none` models the `KeyError`. -/
def getI : Index → RPath → Option Entry
  | i, [] => some (.sub i)
  | .node ds fs, [k] =>
    match lookupA k fs with
    | some v => some (.str v)
    | none => match lookupA k ds with
      | some d => some (.sub d)
      | none => none
  | .node ds _, k :: ks => (lookupA k ds).bind (getI · ks)

/-- `Index.__setitem__`: `none` models `ValueError` on the empty path and the
assert failures on file/directory collisions.  Missing intermediate
directories are created. -/
def setI : Index → RPath → Entry → Option Index
  | _, [], _ => none
  | .node ds fs, [k], .str v =>
    if (lookupA k ds).isSome then none else some (.node ds (insertA k v fs))
  | .node ds fs, [k], .sub s =>
    if (lookupA k fs).isSome then none else some (.node (insertA k s ds) fs)
  | .node ds fs, k :: k' :: ks, v =>
    if (lookupA k fs).isSome then none
    else match lookupA k ds with
      | some sub => (setI sub (k' :: ks) v).map (fun s' => Index.node (insertA k s' ds) fs)
      | none => (setI Index.empty (k' :: ks) v).map (fun s' => Index.node (ds ++ [(k, s')]) fs)

/-- `Index.__delitem__`: `none` models `ValueError`/`KeyError`.  After a
recursive delete, an emptied (`len == 0`) directory entry is pruned. -/
def delI : Index → RPath → Option Index
  | _, [] => none
  | .node ds fs, [k] =>
    if (lookupA k fs).isSome then some (.node ds (eraseA k fs))
    else if (lookupA k ds).isSome then some (.node (eraseA k ds) fs)
    else none
  | .node ds fs, k :: k' :: ks =>
    match lookupA k ds with
    | none => none
    | some sub => (delI sub (k' :: ks)).map (fun sub' =>
        if lenI sub' = 0 then Index.node (eraseA k ds) fs
        else Index.node (insertA k sub' ds) fs)

/-- `Index.__iter__`: all file-leaf paths with their checksums, directories
first (each recursively), then the files of this node. -/
def leaves : Index → List (RPath × String)
  | .node [] fs => fs.map (fun e => ([e.1], e.2))
  | .node ((d, i) :: ds) fs =>
    (leaves i).map (fun e => (d :: e.1, e.2)) ++ leaves (.node ds fs)

@[simp] theorem leaves_nil (fs : List (String × String)) :
    leaves (.node [] fs) = fs.map (fun e => ([e.1], e.2)) := by
  simp [leaves]

@[simp] theorem leaves_cons (d : String) (i : Index) (ds : List (String × Index))
    (fs : List (String × String)) :
    leaves (.node ((d, i) :: ds) fs)
      = (leaves i).map (fun e => (d :: e.1, e.2)) ++ leaves (.node ds fs) := by
  simp [leaves]

/-- `Index.iterdir`: names of immediate children, directories then files. -/
def iterdirI : Index → List String
  | .node ds fs => ds.map Prod.fst ++ fs.map Prod.fst

/-! ### Checksum primitives (src/utils.py)

`slurp` yields a file's content in chunks of `CHUNK_SIZE = 4096` bytes; on an
`IOError` while opening it prints a warning and yields nothing.  A file input
is therefore an `Option Bytes`: `none` is an unreadable file. -/

/-- `CHUNK_SIZE` from src/utils.py. -/
def CHUNK_SIZE : Nat := 4096

/-- The chunk sequence produced by reading `bs` with `f.read(chunk_size)`:
full `CHUNK_SIZE` chunks, then the (nonempty) remainder if any. -/
def chunkify (bs : Bytes) : List Bytes :=
  if h : bs = [] then [] else bs.take CHUNK_SIZE :: chunkify (bs.drop CHUNK_SIZE)
termination_by bs.length
decreasing_by
  simp only [List.length_drop, CHUNK_SIZE]
  have hpos : 0 < bs.length := List.length_pos.mpr h
  omega

/-- `slurp(filename)`: chunks of the content, or nothing on an I/O error. -/
def slurp : Option Bytes → List Bytes
  | none => []
  | some bs => chunkify bs

/-- The lockstep equality computed by the `zip_longest` loop of
`hash_compare_files`: all chunk pairs equal, `None` padding never equal. -/
def eqChunks : List Bytes → List Bytes → Bool
  | [], [] => true
  | [], _ :: _ => false
  | _ :: _, [] => false
  | x :: xs, y :: ys => x = y && eqChunks xs ys

/-- `hash_file(path)`: the streaming hash of all chunks read; an unreadable
file hashes like the empty stream. -/
def hash_file (hash : Bytes → String) (f : Option Bytes) : String :=
  hash (slurp f).flatten

/-- `hash_compare_files(a, b)`: both checksums plus the lockstep
byte-equality flag (src/utils.py lines 99-112).  Each hasher consumes its
own chunks (`chunk or b''` contributes nothing past end of stream), so its
digest is the hash of the concatenated chunks. -/
def hash_compare_files (hash : Bytes → String) (a b : Option Bytes) :
    String × String × Bool :=
  (hash (slurp a).flatten, hash (slurp b).flatten, eqChunks (slurp a) (slurp b))

theorem flatten_chunkify (bs : Bytes) : (chunkify bs).flatten = bs := by
  generalize hn : bs.length = n
  induction n using Nat.strong_induction_on generalizing bs with
  | _ n ih =>
    rw [chunkify.eq_def]
    by_cases h : bs = []
    · simp [h]
    · simp only [dif_neg h, List.flatten_cons]
      have hlt : (bs.drop CHUNK_SIZE).length < n := by
        subst hn
        simp only [List.length_drop, CHUNK_SIZE]
        have hpos : 0 < bs.length := List.length_pos.mpr h
        omega
      rw [ih _ hlt _ rfl, List.take_append_drop]

theorem eqChunks_eq_beq (xs ys : List Bytes) : eqChunks xs ys = (xs = ys : Bool) := by
  induction xs generalizing ys with
  | nil => cases ys <;> simp [eqChunks]
  | cons x xs ih =>
    cases ys with
    | nil => simp [eqChunks]
    | cons y ys => simp [eqChunks, ih]

theorem chunkify_inj {a b : Bytes} (h : chunkify a = chunkify b) : a = b := by
  have := flatten_chunkify a
  rw [h, flatten_chunkify] at this
  exact this.symm

theorem chunkify_eq_nil_iff (bs : Bytes) : chunkify bs = [] ↔ bs = [] := by
  constructor
  · intro h
    by_contra hne
    rw [chunkify.eq_def, dif_neg hne] at h
    exact List.cons_ne_nil _ _ h
  · intro h
    rw [h, chunkify.eq_def]
    simp

/-- C4: `hash_compare_files(a, b)` returns `equal=true` iff the two byte
streams are byte-identical (both files readable; an arbitrary streaming hash
function is irrelevant to the flag). -/
theorem hash_compare_files_eq_iff (hash : Bytes → String) (a b : Bytes) :
    (hash_compare_files hash (some a) (some b)).2.2 = true ↔ a = b := by
  show eqChunks (chunkify a) (chunkify b) = true ↔ a = b
  rw [eqChunks_eq_beq]
  simp only [decide_eq_true_eq]
  constructor
  · intro h
    exact chunkify_inj h
  · intro h
    subst h
    rfl

/-- C10: an unreadable input file behaves as the empty stream: its reported
checksum is the hash of the empty input, and the comparison flag is true
exactly when the other stream is also empty or also unreadable.  Stated for
either argument being unreadable. -/
theorem hash_compare_files_unreadable (hash : Bytes → String) (b : Option Bytes) :
    (hash_compare_files hash none b).1 = hash []
    ∧ ((hash_compare_files hash none b).2.2 = true ↔ b = none ∨ b = some [])
    ∧ (hash_compare_files hash b none).2.1 = hash []
    ∧ ((hash_compare_files hash b none).2.2 = true ↔ b = none ∨ b = some []) := by
  have key : eqChunks [] (slurp b) = true ↔ b = none ∨ b = some [] := by
    rw [eqChunks_eq_beq]
    simp only [decide_eq_true_eq]
    cases b with
    | none => simp [slurp]
    | some bs =>
      simp only [slurp, Option.some.injEq, reduceCtorEq, false_or]
      rw [eq_comm, chunkify_eq_nil_iff]
  have key2 : eqChunks (slurp b) [] = true ↔ b = none ∨ b = some [] := by
    rw [eqChunks_eq_beq]
    rw [eqChunks_eq_beq] at key
    simp only [decide_eq_true_eq] at key ⊢
    rw [eq_comm]
    exact key
  refine ⟨rfl, ?_, rfl, ?_⟩
  · exact key
  · exact key2

/-! ### C6: the no-empty-directory invariant of the index -/

/-- The invariant claimed by the spec: every reachable `dirs` entry holds a
subtree with at least one file leaf. -/
def noEmptyB : Index → Bool
  | .node [] _ => true
  | .node ((_, i) :: ds) fs =>
    decide (0 < lenI i) && noEmptyB i && noEmptyB (.node ds fs)

@[simp] theorem noEmptyB_nil (fs : List (String × String)) :
    noEmptyB (.node [] fs) = true := by
  simp [noEmptyB]

@[simp] theorem noEmptyB_cons (d : String) (i : Index) (ds : List (String × Index))
    (fs : List (String × String)) :
    noEmptyB (.node ((d, i) :: ds) fs)
      = (decide (0 < lenI i) && noEmptyB i && noEmptyB (.node ds fs)) := by
  simp [noEmptyB]

theorem noEmptyB_files_irrel (ds : List (String × Index)) (fs fs' : List (String × String)) :
    noEmptyB (.node ds fs) = noEmptyB (.node ds fs') := by
  induction ds with
  | nil => simp
  | cons e t ih => cases e; simp [ih]

theorem noEmptyB_lookupA {ds : List (String × Index)} {fs : List (String × String)}
    {k : String} {sub : Index} (hne : noEmptyB (.node ds fs) = true)
    (hlk : lookupA k ds = some sub) : noEmptyB sub = true ∧ 0 < lenI sub := by
  induction ds with
  | nil => simp at hlk
  | cons e t ih =>
    obtain ⟨a, i⟩ := e
    simp only [noEmptyB_cons, Bool.and_eq_true, decide_eq_true_eq] at hne
    simp only [lookupA_cons] at hlk
    by_cases ha : a = k
    · rw [if_pos ha] at hlk
      cases hlk
      exact ⟨hne.1.2, hne.1.1⟩
    · rw [if_neg ha] at hlk
      exact ih hne.2 hlk

theorem noEmptyB_insertA {ds : List (String × Index)} {fs : List (String × String)}
    {k : String} {s : Index} (hne : noEmptyB (.node ds fs) = true)
    (hs : noEmptyB s = true) (hp : 0 < lenI s) :
    noEmptyB (.node (insertA k s ds) fs) = true := by
  induction ds with
  | nil => simp [hs, hp]
  | cons e t ih =>
    obtain ⟨a, i⟩ := e
    simp only [noEmptyB_cons, Bool.and_eq_true, decide_eq_true_eq] at hne
    simp only [insertA_cons]
    by_cases ha : a = k
    · rw [if_pos ha]
      simp [hs, hp, hne.2]
    · rw [if_neg ha]
      simp [hne.1.1, hne.1.2, ih hne.2]

theorem noEmptyB_append_one {ds : List (String × Index)} {fs : List (String × String)}
    {k : String} {s : Index} (hne : noEmptyB (.node ds fs) = true)
    (hs : noEmptyB s = true) (hp : 0 < lenI s) :
    noEmptyB (.node (ds ++ [(k, s)]) fs) = true := by
  induction ds with
  | nil => simp [hs, hp]
  | cons e t ih =>
    obtain ⟨a, i⟩ := e
    simp only [noEmptyB_cons, Bool.and_eq_true, decide_eq_true_eq] at hne
    simp only [List.cons_append, noEmptyB_cons, Bool.and_eq_true, decide_eq_true_eq]
    exact ⟨⟨hne.1.1, hne.1.2⟩, ih hne.2⟩

theorem noEmptyB_eraseA {ds : List (String × Index)} {fs : List (String × String)}
    {k : String} (hne : noEmptyB (.node ds fs) = true) :
    noEmptyB (.node (eraseA k ds) fs) = true := by
  induction ds with
  | nil => simp
  | cons e t ih =>
    obtain ⟨a, i⟩ := e
    simp only [noEmptyB_cons, Bool.and_eq_true, decide_eq_true_eq] at hne
    simp only [eraseA_cons]
    by_cases ha : a = k
    · rw [if_pos ha]
      exact hne.2
    · rw [if_neg ha]
      simp [hne.1.1, hne.1.2, ih hne.2]

theorem lenI_pos_of_mem {ds : List (String × Index)} {fs : List (String × String)}
    {k : String} {s : Index} (hmem : (k, s) ∈ ds) (hp : 0 < lenI s) :
    0 < lenI (.node ds fs) := by
  induction ds with
  | nil => simp at hmem
  | cons e t ih =>
    obtain ⟨a, i⟩ := e
    rw [lenI_cons]
    rcases List.mem_cons.mp hmem with h | h
    · cases h
      omega
    · have := ih h
      omega

theorem insertA_mem_self (k : String) (s : α) (ds : List (String × α)) :
    (k, s) ∈ insertA k s ds := by
  induction ds with
  | nil => simp
  | cons e t ih =>
    obtain ⟨a, i⟩ := e
    simp only [insertA_cons]
    by_cases ha : a = k
    · rw [if_pos ha]
      subst ha
      exact List.mem_cons_self _ _
    · rw [if_neg ha]
      exact List.mem_cons_of_mem _ ih

theorem insertA_length_pos (k : String) (v : α) (l : List (String × α)) :
    0 < (insertA k v l).length := by
  induction l with
  | nil => simp
  | cons e t ih =>
    obtain ⟨a, w⟩ := e
    simp only [insertA_cons]
    by_cases ha : a = k
    · rw [if_pos ha]
      simp
    · rw [if_neg ha]
      simp

theorem lenI_files_le (ds : List (String × Index)) (fs : List (String × String)) :
    fs.length ≤ lenI (.node ds fs) := by
  induction ds with
  | nil => simp
  | cons e t ih =>
    obtain ⟨a, i⟩ := e
    rw [lenI_cons]
    omega

/-- Setting a file checksum preserves the invariant and leaves the subtree
with at least one leaf. -/
theorem setI_str_noEmpty (p : RPath) : ∀ (i i' : Index) (v : String),
    setI i p (.str v) = some i' → noEmptyB i = true →
    noEmptyB i' = true ∧ 0 < lenI i' := by
  induction p with
  | nil =>
    intro i i' v h
    simp [setI] at h
  | cons k rest ih =>
    intro i i' v h hne
    obtain ⟨ds, fs⟩ := i
    cases rest with
    | nil =>
      simp only [setI] at h
      by_cases hk : (lookupA k ds).isSome
      · rw [if_pos hk] at h
        cases h
      · rw [if_neg hk] at h
        cases h
        constructor
        · rw [noEmptyB_files_irrel ds (insertA k v fs) fs]
          exact hne
        · have h1 := insertA_length_pos k v fs
          have h2 := lenI_files_le ds (insertA k v fs)
          omega
    | cons k' ks =>
      simp only [setI] at h
      by_cases hkf : (lookupA k fs).isSome
      · rw [if_pos hkf] at h
        cases h
      · rw [if_neg hkf] at h
        cases hlk : lookupA k ds with
        | some sub =>
          rw [hlk] at h
          dsimp only at h
          cases hset : setI sub (k' :: ks) (.str v) with
          | none =>
            rw [hset] at h
            cases h
          | some s' =>
            rw [hset] at h
            cases h
            obtain ⟨hsub, _⟩ := noEmptyB_lookupA hne hlk
            obtain ⟨hs', hp'⟩ := ih sub s' v hset hsub
            refine ⟨noEmptyB_insertA hne hs' hp', ?_⟩
            exact lenI_pos_of_mem (insertA_mem_self k s' ds) hp'
        | none =>
          rw [hlk] at h
          dsimp only at h
          cases hset : setI Index.empty (k' :: ks) (.str v) with
          | none =>
            rw [hset] at h
            cases h
          | some s' =>
            rw [hset] at h
            cases h
            obtain ⟨hs', hp'⟩ := ih Index.empty s' v hset (by simp [Index.empty])
            refine ⟨noEmptyB_append_one hne hs' hp', ?_⟩
            have hmem : (k, s') ∈ ds ++ [(k, s')] := by simp
            exact lenI_pos_of_mem hmem hp'

/-- Deleting preserves the invariant: an emptied directory entry is pruned
on the way back up. -/
theorem delI_noEmpty (p : RPath) : ∀ (i i' : Index),
    delI i p = some i' → noEmptyB i = true → noEmptyB i' = true := by
  induction p with
  | nil =>
    intro i i' h
    simp [delI] at h
  | cons k rest ih =>
    intro i i' h hne
    obtain ⟨ds, fs⟩ := i
    cases rest with
    | nil =>
      simp only [delI] at h
      by_cases hkf : (lookupA k fs).isSome
      · rw [if_pos hkf] at h
        cases h
        rw [noEmptyB_files_irrel ds (eraseA k fs) fs]
        exact hne
      · rw [if_neg hkf] at h
        by_cases hkd : (lookupA k ds).isSome
        · rw [if_pos hkd] at h
          cases h
          exact noEmptyB_eraseA hne
        · rw [if_neg hkd] at h
          cases h
    | cons k' ks =>
      simp only [delI] at h
      cases hlk : lookupA k ds with
      | none =>
        rw [hlk] at h
        cases h
      | some sub =>
        rw [hlk] at h
        dsimp only at h
        cases hdel : delI sub (k' :: ks) with
        | none =>
          rw [hdel] at h
          cases h
        | some sub' =>
          rw [hdel] at h
          cases h
          obtain ⟨hsub, _⟩ := noEmptyB_lookupA hne hlk
          have hsub' := ih sub sub' hdel hsub
          dsimp only
          by_cases hz : lenI sub' = 0
          · rw [if_pos hz]
            exact noEmptyB_eraseA hne
          · rw [if_neg hz]
            exact noEmptyB_insertA hne hsub' (by omega)

/-- Setting a sub-index whose subtree is itself invariant-respecting and
nonempty preserves the invariant; `__setitem__` never prunes, so these
hypotheses are genuinely needed (see the counterexample). -/
theorem setI_sub_noEmpty (p : RPath) : ∀ (i i' : Index) (s : Index),
    setI i p (.sub s) = some i' → noEmptyB i = true →
    noEmptyB s = true → 0 < lenI s → noEmptyB i' = true ∧ 0 < lenI i' := by
  induction p with
  | nil =>
    intro i i' s h
    simp [setI] at h
  | cons k rest ih =>
    intro i i' s h hne hs hp
    obtain ⟨ds, fs⟩ := i
    cases rest with
    | nil =>
      simp only [setI] at h
      by_cases hk : (lookupA k fs).isSome
      · rw [if_pos hk] at h
        cases h
      · rw [if_neg hk] at h
        cases h
        refine ⟨noEmptyB_insertA hne hs hp, ?_⟩
        exact lenI_pos_of_mem (insertA_mem_self k s ds) hp
    | cons k' ks =>
      simp only [setI] at h
      by_cases hkf : (lookupA k fs).isSome
      · rw [if_pos hkf] at h
        cases h
      · rw [if_neg hkf] at h
        cases hlk : lookupA k ds with
        | some sub =>
          rw [hlk] at h
          dsimp only at h
          cases hset : setI sub (k' :: ks) (.sub s) with
          | none =>
            rw [hset] at h
            cases h
          | some s' =>
            rw [hset] at h
            cases h
            obtain ⟨hsub, _⟩ := noEmptyB_lookupA hne hlk
            obtain ⟨hs', hp'⟩ := ih sub s' s hset hsub hs hp
            refine ⟨noEmptyB_insertA hne hs' hp', ?_⟩
            exact lenI_pos_of_mem (insertA_mem_self k s' ds) hp'
        | none =>
          rw [hlk] at h
          dsimp only at h
          cases hset : setI Index.empty (k' :: ks) (.sub s) with
          | none =>
            rw [hset] at h
            cases h
          | some s' =>
            rw [hset] at h
            cases h
            obtain ⟨hs', hp'⟩ := ih Index.empty s' s hset (by simp [Index.empty]) hs hp
            refine ⟨noEmptyB_append_one hne hs' hp', ?_⟩
            have hmem : (k, s') ∈ ds ++ [(k, s')] := by simp
            exact lenI_pos_of_mem hmem hp'

/-- An index mutation of the sync flow: `__setitem__` with a checksum or a
sub-index payload (directory-level `Change.apply` assigns sub-indexes), or
`__delitem__`. -/
inductive Op where
  | set (p : RPath) (v : String)
  | setSub (p : RPath) (s : Index)
  | del (p : RPath)

/-- Apply one mutation (`none` models the raised exception). -/
def applyOp (i : Index) : Op → Option Index
  | .set p v => setI i p (.str v)
  | .setSub p s => setI i p (.sub s)
  | .del p => delI i p

/-- Apply a sequence of mutations left to right. -/
def applyOps (i : Index) (ops : List Op) : Option Index :=
  ops.foldlM applyOp i

/-- Counterexample to C6: `__setitem__` also accepts sub-`Index` payloads —
the sync flow assigns one when applying a directory-level change — and setting
an empty sub-index (as `hash_tree` produces for a hot-only directory holding
no files) creates an empty `dirs` entry that persists: nothing prunes on set,
so the subtree `d` has no file leaf after the operation completes. -/
theorem applyOps_empty_dir_counterexample :
    applyOps Index.empty [Op.setSub ["d"] Index.empty]
      = some (.node [("d", Index.empty)] [])
    ∧ noEmptyB (.node [("d", Index.empty)] []) = false
    ∧ lenI Index.empty = 0 := by
  refine ⟨?_, ?_, ?_⟩
  · simp [applyOps, applyOp, setI, Index.empty, lookupA, insertA]
  · simp [Index.empty, lenI]
  · simp [Index.empty, lenI]

/-- C6 (amended): for every index satisfying the invariant and every
completed sequence of set/delete operations in which each assigned sub-index
itself satisfies the invariant and is nonempty, no empty directory node
persists: every reachable `dirs` subtree still contains at least one file
leaf, deletions pruning an emptied entry eagerly. -/
theorem applyOps_noEmpty_amended :
    ∀ (ops : List Op),
    (∀ p s, Op.setSub p s ∈ ops → noEmptyB s = true ∧ 0 < lenI s) →
    ∀ (i i' : Index),
    applyOps i ops = some i' → noEmptyB i = true → noEmptyB i' = true := by
  intro ops
  induction ops with
  | nil =>
    intro _ i i' h hne
    simp only [applyOps, List.foldlM_nil] at h
    cases h
    exact hne
  | cons op t ih =>
    intro hsub i i' h hne
    simp only [applyOps, List.foldlM_cons] at h
    cases hop : applyOp i op with
    | none =>
      rw [hop] at h
      cases h
    | some j =>
      rw [hop] at h
      refine ih (fun p s hm => hsub p s (List.mem_cons_of_mem _ hm)) j i' h ?_
      cases op with
      | set p v => exact (setI_str_noEmpty p i j v hop hne).1
      | setSub p s =>
        obtain ⟨hns, hps⟩ := hsub p s (List.mem_cons_self _ _)
        exact (setI_sub_noEmpty p i j s hop hne hns hps).1
      | del p => exact delI_noEmpty p i j hop hne

/-- Witness for the amended C6: graft a nonempty subtree `a` (holding file
`b`), then delete `a/b`; the emptied directory `a` is pruned and the
invariant holds. -/
theorem applyOps_noEmpty_amended_witness : noEmptyB (.node [] []) = true :=
  applyOps_noEmpty_amended
    [Op.setSub ["a"] (.node [] [("b", "1")]), Op.del ["a", "b"]]
    (by
      intro p s hm
      simp only [List.mem_cons, List.not_mem_nil, or_false] at hm
      rcases hm with h | h
      · injection h with h1 h2
        subst h2
        exact ⟨by simp, by simp [lenI]⟩
      · exact Op.noConfusion h)
    (.node [] []) (.node [] [])
    (by simp [applyOps, applyOp, setI, delI, lenI, Index.empty, lookupA,
      insertA, eraseA])
    (by simp)

/-! ### C5: the index file round-trip (src/index.py, `store` and `__init__`)

`store` writes the header line followed by `f"{checksum}  {posix_path}\n"`
per file leaf, in `__iter__` order.  Loading reads the header with
`readline`, then for each remaining line skips blank/`#` lines and parses
`line.strip().split("  ", 1)`, assigning `self[PurePath(name)] = checksum`.
We model the body of the file as its list of lines (each a `List Char`
without the terminating newline, which `strip` would discard anyway); the
header is consumed before the loop and carries no (dirs, files) content. -/

/-- The posix form `name.as_posix()` of a relative path. -/
def joinP : RPath → List Char
  | [] => []
  | [c] => c.data
  | c :: rest => c.data ++ '/' :: joinP rest

/-- One body line `f"{v}  {name}"` of the index file. -/
def mkLine (p : RPath) (v : String) : List Char :=
  v.data ++ ' ' :: ' ' :: joinP p

/-- `Index.store`: the body lines, one per file leaf, in `__iter__` order. -/
def storeLines (i : Index) : List (List Char) :=
  (leaves i).map (fun e => mkLine e.1 e.2)

/-- The whitespace characters Python's `str.strip()` removes: the Unicode
set accepted by `str.isspace()`. -/
def pySpace : List Char :=
  ['\t', '\n', '\x0b', '\x0c', '\r', '\x1c', '\x1d', '\x1e', '\x1f', ' ',
   '\x85', '\xa0', '\u1680', '\u2000', '\u2001', '\u2002', '\u2003',
   '\u2004', '\u2005', '\u2006', '\u2007', '\u2008', '\u2009', '\u200a',
   '\u2028', '\u2029', '\u202f', '\u205f', '\u3000']

/-- Python `str.isspace()` for one character. -/
def pyIsSpace (c : Char) : Bool := decide (c ∈ pySpace)

/-- Python `str.strip()` on a line. -/
def trimL (l : List Char) : List Char :=
  ((l.dropWhile pyIsSpace).reverse.dropWhile pyIsSpace).reverse

/-- Python `s.split("  ", 1)`: split at the first occurrence of two spaces;
`none` models the `ValueError` when unpacking a line without a separator. -/
def split2 : List Char → Option (List Char × List Char)
  | [] => none
  | [_] => none
  | c₁ :: c₂ :: rest =>
    if c₁ = ' ' ∧ c₂ = ' ' then some ([], rest)
    else (split2 (c₂ :: rest)).map (fun pr => (c₁ :: pr.1, pr.2))

/-- Split a character list at `/` (the component splitting of `PurePath`). -/
def splitSlash : List Char → List (List Char)
  | [] => [[]]
  | c :: rest =>
    match splitSlash rest with
    | [] => [[]]
    | h :: t => if c = '/' then [] :: h :: t else (c :: h) :: t

/-- `PurePath(name)` for the loader: reject absolute paths (the
`_validate_key` assert), drop empty and `.` components. -/
def parsePP (cs : List Char) : Option RPath :=
  if cs.head? = some '/' then none
  else some (((splitSlash cs).filter (fun c => c ≠ [] ∧ c ≠ ['.'])).map (fun c => String.mk c))

/-- Process one body line of the index file. -/
def loadLine (i : Index) (line : List Char) : Option Index :=
  if trimL line = [] then some i
  else if line.head? = some '#' then some i
  else match split2 (trimL line) with
    | none => none
    | some pr => (parsePP pr.2).bind (fun p => setI i p (.str (String.mk pr.1)))

/-- `Index.__init__` over the body lines, starting from the empty index. -/
def loadBody (ls : List (List Char)) : Option Index :=
  ls.foldlM loadLine Index.empty

/-- A lowercase/uppercase hexadecimal digit (the alphabet of `hexdigest`). -/
def isHexChar (c : Char) : Bool :=
  c.isDigit || ('a' ≤ c && c ≤ 'f') || ('A' ≤ c && c ≤ 'F')

/-- A checksum as actually produced by the hasher: a nonempty hex string. -/
def goodVal (v : String) : Bool :=
  v ≠ "" && v.data.all isHexChar

/-- A path component that survives the textual format: nonempty, not `.`,
and free of `/` and of the line-breaking characters `\n` and `\r`;
internal whitespace (including plain spaces) is allowed and round-trips. -/
def goodName (c : String) : Bool :=
  c ≠ "" && c ≠ "." && c.data.all (fun ch => ch ≠ '/' && ch ≠ '\n' && ch ≠ '\r')

/-- A file name whose final character `str.strip()` would not remove from the
end of its stored line. -/
def goodTail (c : String) : Bool :=
  match c.data.getLast? with
  | some ch => !pyIsSpace ch
  | none => true

/-- Well-formedness of an in-memory index: unique keys per node, `dirs` and
`files` disjoint, component names free of `/` and line breaks, file names not
ending in a character `str.strip()` removes, hex checksum values, and no
empty directory subtree — exactly the indexes the textual format can carry
back unchanged. -/
def wfB : Index → Bool
  | .node [] [] => true
  | .node [] ((n, v) :: fs) =>
    goodName n && goodTail n && goodVal v && (lookupA n fs).isNone && wfB (.node [] fs)
  | .node ((d, s) :: ds) fs =>
    goodName d && (lookupA d ds).isNone && (lookupA d fs).isNone
      && wfB s && decide (0 < lenI s) && wfB (.node ds fs)

@[simp] theorem wfB_nil_nil : wfB (.node [] []) = true := by
  simp [wfB]

@[simp] theorem wfB_nil_cons (n v : String) (fs : List (String × String)) :
    wfB (.node [] ((n, v) :: fs))
      = (goodName n && goodTail n && goodVal v && (lookupA n fs).isNone
          && wfB (.node [] fs)) := by
  simp [wfB]

@[simp] theorem wfB_cons (d : String) (s : Index) (ds : List (String × Index))
    (fs : List (String × String)) :
    wfB (.node ((d, s) :: ds) fs)
      = (goodName d && (lookupA d ds).isNone && (lookupA d fs).isNone
          && wfB s && decide (0 < lenI s) && wfB (.node ds fs)) := by
  simp [wfB]

/-! #### Character and line-format lemmas -/

theorem isHexChar_ne {c x : Char} (h : isHexChar c = true) (hx : isHexChar x = false) :
    c ≠ x := by
  rintro rfl
  rw [h] at hx
  cases hx

theorem isHexChar_not_ws {c : Char} (h : isHexChar c = true) : pyIsSpace c = false := by
  cases hws : pyIsSpace c with
  | false => rfl
  | true =>
    exfalso
    have hx : c ∈ pySpace := by simpa [pyIsSpace] using hws
    have hall : ∀ x ∈ pySpace, isHexChar x = false := by decide
    rw [hall c hx] at h
    cases h

theorem goodName_chars {c : String} (h : goodName c = true) :
    ∀ ch ∈ c.data, ch ≠ '/' ∧ ch ≠ '\n' ∧ ch ≠ '\r' := by
  intro ch hch
  simp only [goodName, Bool.and_eq_true, List.all_eq_true] at h
  have := h.2 ch hch
  simp only [Bool.and_eq_true, decide_eq_true_eq] at this
  exact ⟨this.1.1, this.1.2, this.2⟩

theorem goodName_data_ne_nil {c : String} (h : goodName c = true) : c.data ≠ [] := by
  simp only [goodName, Bool.and_eq_true, decide_eq_true_eq] at h
  intro hd
  apply h.1.1
  cases c
  cases hd
  rfl

theorem goodVal_data_ne_nil {v : String} (h : goodVal v = true) : v.data ≠ [] := by
  simp only [goodVal, Bool.and_eq_true, decide_eq_true_eq] at h
  intro hd
  apply h.1
  cases v
  cases hd
  rfl

theorem goodVal_chars {v : String} (h : goodVal v = true) :
    ∀ ch ∈ v.data, isHexChar ch = true := by
  simp only [goodVal, Bool.and_eq_true, List.all_eq_true] at h
  exact h.2

theorem mkString_data (c : String) : String.mk c.data = c := by
  cases c
  rfl

theorem data_inj {a b : String} (h : a.data = b.data) : a = b := by
  cases a
  cases b
  cases h
  rfl

/-! #### `lookupA`/`insertA` structural lemmas -/

theorem lookupA_eq_none_iff (k : String) (l : List (String × α)) :
    lookupA k l = none ↔ k ∉ l.map Prod.fst := by
  induction l with
  | nil => simp
  | cons e t ih =>
    obtain ⟨a, v⟩ := e
    by_cases ha : a = k
    · subst ha
      simp
    · simp [ha, ih, Ne.symm ha]

theorem lookupA_append (k : String) (l₁ l₂ : List (String × α)) :
    lookupA k (l₁ ++ l₂)
      = match lookupA k l₁ with
        | some v => some v
        | none => lookupA k l₂ := by
  induction l₁ with
  | nil => simp
  | cons e t ih =>
    obtain ⟨a, v⟩ := e
    by_cases ha : a = k
    · simp [ha]
    · simp [ha, ih]

theorem lookupA_append_self (k : String) (l : List (String × α)) (v : α)
    (h : lookupA k l = none) : lookupA k (l ++ [(k, v)]) = some v := by
  rw [lookupA_append, h]
  simp

theorem insertA_append (k : String) (v : α) (l₁ l₂ : List (String × α))
    (h : lookupA k l₁ = none) : insertA k v (l₁ ++ l₂) = l₁ ++ insertA k v l₂ := by
  induction l₁ with
  | nil => simp
  | cons e t ih =>
    obtain ⟨a, w⟩ := e
    simp only [lookupA_cons] at h
    by_cases ha : a = k
    · rw [if_pos ha] at h
      cases h
    · rw [if_neg ha] at h
      simp [ha, ih h]

theorem insertA_fresh (k : String) (v : α) (l : List (String × α))
    (h : lookupA k l = none) : insertA k v l = l ++ [(k, v)] := by
  have := insertA_append k v l [] h
  simpa using this

/-! #### Splitter and trim lemmas -/

theorem split2_sep (v rest : List Char) (h : ∀ ch ∈ v, ch ≠ ' ') :
    split2 (v ++ ' ' :: ' ' :: rest) = some (v, rest) := by
  induction v with
  | nil => simp [split2]
  | cons c t ih =>
    have hc : c ≠ ' ' := h c (List.mem_cons_self c t)
    have ht : ∀ ch ∈ t, ch ≠ ' ' := fun ch hch => h ch (List.mem_cons_of_mem c hch)
    cases t with
    | nil =>
      simp only [List.nil_append] at ih ⊢
      simp [split2, hc, ih ht]
    | cons c' t' =>
      simp only [List.cons_append] at ih ⊢
      rw [split2]
      · rw [if_neg (by simp [hc]), ih ht]
        rfl

theorem splitSlash_ne_nil (l : List Char) : splitSlash l ≠ [] := by
  cases l with
  | nil => simp [splitSlash]
  | cons c rest =>
    rw [splitSlash]
    cases splitSlash rest with
    | nil => simp
    | cons h t =>
      by_cases hc : c = '/' <;> simp [hc]

theorem splitSlash_no_slash (xs : List Char) (h : ∀ ch ∈ xs, ch ≠ '/') :
    splitSlash xs = [xs] := by
  induction xs with
  | nil => rfl
  | cons c t ih =>
    have hc : c ≠ '/' := h c (List.mem_cons_self c t)
    have ht : ∀ ch ∈ t, ch ≠ '/' := fun ch hch => h ch (List.mem_cons_of_mem c hch)
    rw [splitSlash, ih ht]
    simp [hc]

theorem splitSlash_append (xs ys : List Char) (h : ∀ ch ∈ xs, ch ≠ '/') :
    splitSlash (xs ++ '/' :: ys) = xs :: splitSlash ys := by
  induction xs with
  | nil =>
    simp only [List.nil_append]
    rw [splitSlash]
    cases hs : splitSlash ys with
    | nil => exact absurd hs (splitSlash_ne_nil ys)
    | cons a t => simp
  | cons c t ih =>
    have hc : c ≠ '/' := h c (List.mem_cons_self c t)
    have ht : ∀ ch ∈ t, ch ≠ '/' := fun ch hch => h ch (List.mem_cons_of_mem c hch)
    simp only [List.cons_append]
    rw [splitSlash, ih ht]
    simp [hc]

theorem trimL_eq_self {l : List Char}
    (hh : ∀ c ∈ l.head?, pyIsSpace c = false)
    (hl : ∀ c ∈ l.getLast?, pyIsSpace c = false) : trimL l = l := by
  unfold trimL
  cases l with
  | nil => rfl
  | cons c t =>
    have hc : pyIsSpace c = false := hh c (by simp)
    rw [List.dropWhile_cons, hc]
    simp only [Bool.false_eq_true, if_false]
    cases hre : (c :: t).reverse with
    | nil => exact absurd hre (by simp)
    | cons a r =>
      have ha : pyIsSpace a = false := by
        have : (c :: t).getLast? = some a := by
          rw [← List.head?_reverse, hre]
          rfl
        exact hl a (by simp [this])
      rw [List.dropWhile_cons, ha]
      simp only [Bool.false_eq_true, if_false]
      rw [← hre, List.reverse_reverse]

/-! #### Path rendering and parsing round-trip -/

theorem joinP_ne_nil {c : String} (rest : RPath) (hc : c.data ≠ []) :
    joinP (c :: rest) ≠ [] := by
  cases rest with
  | nil => simpa [joinP] using hc
  | cons c' r =>
    simp only [joinP]
    intro hcontra
    rcases List.append_eq_nil.mp hcontra with ⟨h1, h2⟩
    exact hc h1

theorem joinP_head? {c : String} {y : Char} {ys : List Char} (rest : RPath)
    (hc : c.data = y :: ys) : (joinP (c :: rest)).head? = some y := by
  cases rest with
  | nil => simp [joinP, hc]
  | cons c' r => simp [joinP, hc]

theorem joinP_splitSlash (p : RPath) (hp : p ≠ [])
    (hg : ∀ c ∈ p, ∀ ch ∈ c.data, ch ≠ '/') :
    splitSlash (joinP p) = p.map String.data := by
  induction p with
  | nil => exact absurd rfl hp
  | cons c rest ih =>
    cases rest with
    | nil =>
      simp only [joinP, List.map_cons, List.map_nil]
      exact splitSlash_no_slash c.data (hg c (List.mem_cons_self c []))
    | cons c' r =>
      simp only [joinP]
      rw [splitSlash_append c.data _ (hg c (List.mem_cons_self c _))]
      rw [ih (by simp) (fun x hx => hg x (List.mem_cons_of_mem c hx))]
      simp

theorem joinP_getLast? (p : RPath) (hp : p ≠ [])
    (hg : ∀ c ∈ p, c.data ≠ []) :
    ∃ c, p.getLast? = some c ∧ (joinP p).getLast? = c.data.getLast? := by
  induction p with
  | nil => exact absurd rfl hp
  | cons c rest ih =>
    cases rest with
    | nil => exact ⟨c, by simp, by simp [joinP]⟩
    | cons c' r =>
      obtain ⟨cc, hcc, hj⟩ := ih (by simp) (fun x hx => hg x (List.mem_cons_of_mem c hx))
      refine ⟨cc, ?_, ?_⟩
      · rw [List.getLast?_cons_cons]
        exact hcc
      · simp only [joinP]
        rw [List.getLast?_append_of_ne_nil _ (by simp)]
        have hne : joinP (c' :: r) ≠ [] := joinP_ne_nil r (hg c' (by simp))
        cases hjp : joinP (c' :: r) with
        | nil => exact absurd hjp hne
        | cons j js =>
          rw [List.getLast?_cons_cons, ← hjp]
          exact hj

theorem parsePP_joinP (p : RPath) (hp : p ≠ []) (hg : ∀ c ∈ p, goodName c = true) :
    parsePP (joinP p) = some p := by
  obtain ⟨c, rest, rfl⟩ : ∃ c rest, p = c :: rest := by
    cases p with
    | nil => exact absurd rfl hp
    | cons c rest => exact ⟨c, rest, rfl⟩
  have hcdata := goodName_data_ne_nil (hg c (by simp))
  obtain ⟨y, ys, hyd⟩ : ∃ y ys, c.data = y :: ys := by
    cases hd : c.data with
    | nil => exact absurd hd hcdata
    | cons y ys => exact ⟨y, ys, rfl⟩
  have hslash : ∀ x ∈ c :: rest, ∀ ch ∈ x.data, ch ≠ '/' := by
    intro x hx ch hch
    exact (goodName_chars (hg x hx) ch hch).1
  have hy : y ≠ '/' := by
    have : y ∈ c.data := by simp [hyd]
    exact hslash c (by simp) y this
  unfold parsePP
  rw [joinP_head? rest hyd, if_neg (by simpa using hy)]
  rw [joinP_splitSlash (c :: rest) (by simp) hslash]
  have hkeep : ∀ x ∈ (c :: rest).map String.data, (decide (x ≠ [] ∧ x ≠ ['.'])) = true := by
    intro x hx
    obtain ⟨cc, hcc, rfl⟩ := List.mem_map.mp hx
    simp only [decide_eq_true_eq]
    constructor
    · exact goodName_data_ne_nil (hg cc hcc)
    · intro hdot
      have h1 := mkString_data cc
      rw [hdot] at h1
      have h2 : cc = "." := by rw [← h1]
      have := hg cc hcc
      rw [h2] at this
      simp [goodName] at this
  rw [List.filter_eq_self.mpr hkeep]
  rw [List.map_map]
  congr 1
  have : ∀ x ∈ c :: rest, (String.mk ∘ String.data) x = id x := by
    intro x hx
    simp [mkString_data x]
  rw [List.map_congr_left this, List.map_id]

/-! #### Parsing a stored line recovers the assignment -/

theorem mkLine_getLast? (p : RPath) (v : String) (hj : joinP p ≠ []) :
    (mkLine p v).getLast? = (joinP p).getLast? := by
  unfold mkLine
  rw [List.getLast?_append_of_ne_nil _ (by simp)]
  cases hjp : joinP p with
  | nil => exact absurd hjp hj
  | cons j js => simp

theorem loadLine_mkLine (i : Index) (p : RPath) (v : String)
    (hv : goodVal v = true) (hp : p ≠ []) (hg : ∀ c ∈ p, goodName c = true)
    (htl : ∀ c, p.getLast? = some c → goodTail c = true) :
    loadLine i (mkLine p v) = setI i p (.str v) := by
  obtain ⟨c, rest, rfl⟩ : ∃ c rest, p = c :: rest := by
    cases p with
    | nil => exact absurd rfl hp
    | cons c rest => exact ⟨c, rest, rfl⟩
  obtain ⟨x, xs, hxv⟩ : ∃ x xs, v.data = x :: xs := by
    cases hd : v.data with
    | nil => exact absurd hd (goodVal_data_ne_nil hv)
    | cons x xs => exact ⟨x, xs, rfl⟩
  have hxhex : isHexChar x = true := goodVal_chars hv x (by simp [hxv])
  have hjoin : joinP (c :: rest) ≠ [] :=
    joinP_ne_nil rest (goodName_data_ne_nil (hg c (by simp)))
  have hhead : (mkLine (c :: rest) v).head? = some x := by
    unfold mkLine
    rw [hxv]
    simp
  have htrim : trimL (mkLine (c :: rest) v) = mkLine (c :: rest) v := by
    apply trimL_eq_self
    · intro ch hch
      rw [hhead] at hch
      simp only [Option.mem_def, Option.some.injEq] at hch
      subst hch
      exact isHexChar_not_ws hxhex
    · intro ch hch
      rw [mkLine_getLast? _ _ hjoin] at hch
      obtain ⟨cc, hcc, hj⟩ := joinP_getLast? (c :: rest) (by simp)
          (fun x hx => goodName_data_ne_nil (hg x hx))
      rw [hj] at hch
      have hgt := htl cc hcc
      unfold goodTail at hgt
      cases hlast : cc.data.getLast? with
      | none =>
        rw [hlast] at hch
        cases hch
      | some ch' =>
        rw [hlast] at hch hgt
        simp only [Option.mem_def, Option.some.injEq] at hch
        subst hch
        simpa using hgt
  have hne : mkLine (c :: rest) v ≠ [] := by
    unfold mkLine
    rw [hxv]
    simp
  unfold loadLine
  rw [htrim, if_neg hne, hhead]
  have hxhash : x ≠ '#' := isHexChar_ne hxhex (by decide)
  rw [if_neg (by simpa using hxhash)]
  have hsp : ∀ ch ∈ v.data, ch ≠ ' ' := by
    intro ch hch
    exact isHexChar_ne (goodVal_chars hv ch hch) (by decide)
  have hsplit : split2 (mkLine (c :: rest) v) = some (v.data, joinP (c :: rest)) := by
    unfold mkLine
    exact split2_sep v.data (joinP (c :: rest)) hsp
  rw [hsplit]
  simp only
  rw [parsePP_joinP (c :: rest) (by simp) hg]
  simp [mkString_data]

/-! #### Rebuilding an index from its leaves -/

/-- One loader assignment `self[PurePath(name)] = checksum`. -/
def insLeaf (acc : Index) (e : RPath × String) : Option Index :=
  setI acc e.1 (.str e.2)

/-- Peel-style induction on `Index`, following how `lenI`, `leaves` and
`wfB` recurse. -/
theorem peelInd (P : Index → Prop)
    (h1 : ∀ fs, P (.node [] fs))
    (h2 : ∀ d S ds fs, P S → P (.node ds fs) → P (.node ((d, S) :: ds) fs)) :
    ∀ i, P i := by
  have key : ∀ (n : Nat) (i : Index), sizeOf i ≤ n → P i := by
    intro n
    induction n using Nat.strong_induction_on with
    | _ n ih =>
      intro i hle
      obtain ⟨ds, fs⟩ := i
      cases ds with
      | nil => exact h1 fs
      | cons e ds' =>
        obtain ⟨d, S⟩ := e
        have hsz : sizeOf (Index.node ((d, S) :: ds') fs)
            = 1 + (1 + (1 + sizeOf d + sizeOf S) + sizeOf ds') + sizeOf fs := by
          simp
        have hS : P S := by
          refine ih (sizeOf S) ?_ S le_rfl
          omega
        have hds : P (Index.node ds' fs) := by
          refine ih (sizeOf (Index.node ds' fs)) ?_ _ le_rfl
          have : sizeOf (Index.node ds' fs) = 1 + sizeOf ds' + sizeOf fs := by simp
          omega
        exact h2 d S ds' fs hS hds
  intro i
  exact key (sizeOf i) i le_rfl

theorem lenI_eq_leaves_length (i : Index) : lenI i = (leaves i).length := by
  induction i using peelInd with
  | h1 fs => simp
  | h2 d S ds fs ihS ihds => simp [ihS, ihds]

theorem leaves_path_ne_nil (i : Index) : ∀ e ∈ leaves i, e.1 ≠ [] := by
  induction i using peelInd with
  | h1 fs =>
    intro e he
    rw [leaves_nil] at he
    obtain ⟨x, _, rfl⟩ := List.mem_map.mp he
    simp
  | h2 d S ds fs ihS ihds =>
    intro e he
    rw [leaves_cons] at he
    rcases List.mem_append.mp he with h | h
    · obtain ⟨x, _, rfl⟩ := List.mem_map.mp h
      simp
    · exact ihds e h

theorem wfB_files_good {fs : List (String × String)} (h : wfB (.node [] fs) = true) :
    ∀ e ∈ fs, goodName e.1 = true ∧ goodTail e.1 = true ∧ goodVal e.2 = true := by
  induction fs with
  | nil => simp
  | cons e t ih =>
    obtain ⟨n, v⟩ := e
    rw [wfB_nil_cons] at h
    simp only [Bool.and_eq_true] at h
    intro x hx
    rcases List.mem_cons.mp hx with rfl | hx'
    · exact ⟨h.1.1.1.1, h.1.1.1.2, h.1.1.2⟩
    · exact ih h.2 x hx'

theorem leaves_good (i : Index) (hwf : wfB i = true) :
    ∀ e ∈ leaves i, (∀ c ∈ e.1, goodName c = true) ∧ goodVal e.2 = true
      ∧ (∀ c, e.1.getLast? = some c → goodTail c = true) := by
  induction i using peelInd with
  | h1 fs =>
    intro e he
    rw [leaves_nil] at he
    obtain ⟨x, hx, rfl⟩ := List.mem_map.mp he
    have hfg := wfB_files_good hwf x hx
    refine ⟨?_, hfg.2.2, ?_⟩
    · intro c hc
      rcases List.mem_singleton.mp hc with rfl
      exact hfg.1
    · intro c hc
      have hcx : c = x.1 := by
        simpa using hc.symm
      rw [hcx]
      exact hfg.2.1
  | h2 d S ds fs ihS ihds =>
    rw [wfB_cons] at hwf
    simp only [Bool.and_eq_true] at hwf
    intro e he
    rw [leaves_cons] at he
    rcases List.mem_append.mp he with h | h
    · obtain ⟨x, hx, rfl⟩ := List.mem_map.mp h
      have hx' := ihS hwf.1.1.2 x hx
      refine ⟨?_, hx'.2.1, ?_⟩
      · intro c hc
        rcases List.mem_cons.mp hc with rfl | hc'
        · exact hwf.1.1.1.1.1
        · exact hx'.1 c hc'
      · intro c hc
        have hne : x.1 ≠ [] := leaves_path_ne_nil S x hx
        cases hx1 : x.1 with
        | nil => exact absurd hx1 hne
        | cons y ys =>
          rw [hx1, List.getLast?_cons_cons] at hc
          apply hx'.2.2
          rw [hx1]
          exact hc
    · exact ihds hwf.2 e h

theorem fold_files (fs : List (String × String)) :
    ∀ (Jd : List (String × Index)) (Jf : List (String × String)),
    wfB (.node [] fs) = true →
    (∀ k ∈ fs.map Prod.fst, lookupA k Jd = none ∧ lookupA k Jf = none) →
    List.foldlM insLeaf (Index.node Jd Jf) (fs.map (fun e => ([e.1], e.2)))
      = some (.node Jd (Jf ++ fs)) := by
  induction fs with
  | nil =>
    intro Jd Jf _ _
    simp
  | cons e t ih =>
    obtain ⟨n, v⟩ := e
    intro Jd Jf hwf hdisj
    rw [wfB_nil_cons] at hwf
    simp only [Bool.and_eq_true] at hwf
    have hn := hdisj n (by simp)
    simp only [List.map_cons, List.foldlM_cons]
    have hstep : insLeaf (Index.node Jd Jf) ([n], v) = some (.node Jd (insertA n v Jf)) := by
      unfold insLeaf
      simp only [setI]
      rw [hn.1]
      rfl
    rw [hstep]
    simp only [Option.bind_eq_bind, Option.some_bind]
    rw [insertA_fresh n v Jf hn.2]
    have hnone : lookupA n t = none := by
      cases ht : lookupA n t with
      | none => rfl
      | some w =>
        rw [ht] at hwf
        simp [Option.isNone] at hwf
    have hdisj' : ∀ k ∈ t.map Prod.fst, lookupA k Jd = none ∧ lookupA k (Jf ++ [(n, v)]) = none := by
      intro k hk
      have hkk := hdisj k (by simp [hk])
      refine ⟨hkk.1, ?_⟩
      rw [lookupA_append, hkk.2]
      have hkn : k ≠ n := by
        intro heq
        subst heq
        exact absurd hk ((lookupA_eq_none_iff k t).mp hnone)
      rw [lookupA_cons, if_neg (fun h => hkn h.symm)]
      rfl
    rw [ih Jd (Jf ++ [(n, v)]) hwf.2 hdisj']
    simp

theorem prefix_fold (L : List (RPath × String)) :
    ∀ (Jd : List (String × Index)) (Jf : List (String × String)) (d : String) (K : Index),
    lookupA d Jd = none → lookupA d Jf = none → (∀ e ∈ L, e.1 ≠ []) →
    List.foldlM insLeaf (Index.node (Jd ++ [(d, K)]) Jf) (L.map (fun e => (d :: e.1, e.2)))
      = (List.foldlM insLeaf K L).map (fun K' => Index.node (Jd ++ [(d, K')]) Jf) := by
  induction L with
  | nil =>
    intro Jd Jf d K _ _ _
    simp
  | cons e t ih =>
    obtain ⟨p, v⟩ := e
    intro Jd Jf d K hd hf hpaths
    obtain ⟨q, qs, rfl⟩ : ∃ q qs, p = q :: qs := by
      cases hp : p with
      | nil => exact absurd hp (hpaths (p, v) (by simp [hp]) |> fun h => by simp_all)
      | cons q qs => exact ⟨q, qs, rfl⟩
    simp only [List.map_cons, List.foldlM_cons]
    have hstep : insLeaf (Index.node (Jd ++ [(d, K)]) Jf) (d :: q :: qs, v)
        = (setI K (q :: qs) (.str v)).map
            (fun s' => Index.node (Jd ++ [(d, s')]) Jf) := by
      unfold insLeaf
      simp only [setI]
      rw [hf]
      simp only [Option.isSome_none, Bool.false_eq_true, if_false]
      rw [lookupA_append_self d Jd K hd]
      have hins : ∀ s' : Index, insertA d s' (Jd ++ [(d, K)]) = Jd ++ [(d, s')] := by
        intro s'
        rw [insertA_append d s' Jd [(d, K)] hd]
        simp
      cases hset : setI K (q :: qs) (.str v) with
      | none => simp [hset]
      | some s' => simp [hset, hins s']
    rw [hstep]
    cases hset : setI K (q :: qs) (.str v) with
    | none => simp [insLeaf, hset]
    | some K1 =>
      simp only [insLeaf, hset, Option.map_some', Option.bind_eq_bind, Option.some_bind]
      rw [ih Jd Jf d K1 hd hf (fun x hx => hpaths x (List.mem_cons_of_mem _ hx))]

theorem prefix_fold_start (L : List (RPath × String)) (Jd : List (String × Index))
    (Jf : List (String × String)) (d : String)
    (hd : lookupA d Jd = none) (hf : lookupA d Jf = none)
    (hpaths : ∀ e ∈ L, e.1 ≠ []) (hne : L ≠ []) :
    List.foldlM insLeaf (Index.node Jd Jf) (L.map (fun e => (d :: e.1, e.2)))
      = (List.foldlM insLeaf Index.empty L).map (fun K' => Index.node (Jd ++ [(d, K')]) Jf) := by
  obtain ⟨e, t, rfl⟩ : ∃ e t, L = e :: t := by
    cases hL : L with
    | nil => exact absurd hL hne
    | cons e t => exact ⟨e, t, rfl⟩
  obtain ⟨p, v⟩ := e
  obtain ⟨q, qs, rfl⟩ : ∃ q qs, p = q :: qs := by
    cases hp : p with
    | nil => exact absurd hp (hpaths (p, v) (by simp [hp]) |> fun h => by simp_all)
    | cons q qs => exact ⟨q, qs, rfl⟩
  simp only [List.map_cons, List.foldlM_cons]
  have hstep : insLeaf (Index.node Jd Jf) (d :: q :: qs, v)
      = (setI Index.empty (q :: qs) (.str v)).map
          (fun s' => Index.node (Jd ++ [(d, s')]) Jf) := by
    unfold insLeaf
    simp only [setI]
    rw [hf]
    simp only [Option.isSome_none, Bool.false_eq_true, if_false]
    rw [hd]
  rw [hstep]
  have hstep2 : insLeaf Index.empty (q :: qs, v) = setI Index.empty (q :: qs) (.str v) := rfl
  rw [hstep2]
  cases hset : setI Index.empty (q :: qs) (.str v) with
  | none => simp
  | some K1 =>
    simp only [Option.map_some', Option.bind_eq_bind, Option.some_bind]
    rw [prefix_fold t Jd Jf d K1 hd hf (fun x hx => hpaths x (List.mem_cons_of_mem _ hx))]

theorem fold_leaves (i : Index) :
    ∀ (Jd : List (String × Index)) (Jf : List (String × String)),
    wfB i = true →
    (∀ k, (k ∈ i.dirs.map Prod.fst ∨ k ∈ i.files.map Prod.fst) →
      lookupA k Jd = none ∧ lookupA k Jf = none) →
    List.foldlM insLeaf (Index.node Jd Jf) (leaves i)
      = some (.node (Jd ++ i.dirs) (Jf ++ i.files)) := by
  induction i using peelInd with
  | h1 fs =>
    intro Jd Jf hwf hdisj
    rw [leaves_nil]
    rw [fold_files fs Jd Jf hwf (fun k hk => hdisj k (Or.inr hk))]
    simp [Index.dirs, Index.files]
  | h2 d S ds fs ihS ihds =>
    intro Jd Jf hwf hdisj
    rw [wfB_cons] at hwf
    simp only [Bool.and_eq_true] at hwf
    obtain ⟨⟨⟨⟨⟨hgood, hdds⟩, hdfs⟩, hwfS⟩, hlen⟩, hwfds⟩ := hwf
    rw [leaves_cons, List.foldlM_append]
    have hdJ := hdisj d (Or.inl (by simp [Index.dirs]))
    have hSne : leaves S ≠ [] := by
      intro hnil
      rw [decide_eq_true_eq, lenI_eq_leaves_length, hnil] at hlen
      simp at hlen
    have hSfold : List.foldlM insLeaf Index.empty (leaves S) = some S := by
      have hres := ihS [] [] hwfS (by intro k _; simp)
      rw [show Index.empty = Index.node [] [] from rfl, hres]
      cases S
      simp [Index.dirs, Index.files]
    have hfirst := prefix_fold_start (leaves S) Jd Jf d hdJ.1 hdJ.2
        (fun e he => leaves_path_ne_nil S e he) hSne
    rw [hfirst, hSfold]
    simp only [Option.map_some', Option.bind_eq_bind, Option.some_bind]
    have hddsn : lookupA d ds = none := Option.isNone_iff_eq_none.mp hdds
    have hdfsn : lookupA d fs = none := Option.isNone_iff_eq_none.mp hdfs
    have hdisj2 : ∀ k,
        (k ∈ (Index.node ds fs).dirs.map Prod.fst ∨ k ∈ (Index.node ds fs).files.map Prod.fst) →
        lookupA k (Jd ++ [(d, S)]) = none ∧ lookupA k Jf = none := by
      intro k hk
      have hkI : k ∈ (Index.node ((d, S) :: ds) fs).dirs.map Prod.fst
          ∨ k ∈ (Index.node ((d, S) :: ds) fs).files.map Prod.fst := by
        rcases hk with h | h
        · left
          simp only [Index.dirs] at h ⊢
          simp only [List.map_cons]
          exact List.mem_cons_of_mem _ h
        · right
          simpa [Index.files] using h
      have hkJ := hdisj k hkI
      refine ⟨?_, hkJ.2⟩
      rw [lookupA_append, hkJ.1]
      have hkd : k ≠ d := by
        intro heq
        subst heq
        rcases hk with h | h
        · exact absurd (by simpa [Index.dirs] using h) ((lookupA_eq_none_iff k ds).mp hddsn)
        · exact absurd (by simpa [Index.files] using h) ((lookupA_eq_none_iff k fs).mp hdfsn)
      rw [lookupA_cons, if_neg (fun h => hkd h.symm)]
      rfl
    have hrest := ihds (Jd ++ [(d, S)]) Jf hwfds hdisj2
    rw [hrest]
    simp [Index.dirs, Index.files]

/-! #### The round-trip (C5) -/

theorem foldlM_loadLine_map (L : List (RPath × String)) :
    ∀ (i : Index),
    (∀ e ∈ L, goodVal e.2 = true ∧ e.1 ≠ [] ∧ (∀ c ∈ e.1, goodName c = true)
      ∧ (∀ c, e.1.getLast? = some c → goodTail c = true)) →
    List.foldlM loadLine i (L.map (fun e => mkLine e.1 e.2))
      = List.foldlM insLeaf i L := by
  induction L with
  | nil =>
    intro i _
    simp
  | cons e t ih =>
    obtain ⟨p, v⟩ := e
    intro i hgood
    have he := hgood (p, v) (by simp)
    simp only [List.map_cons, List.foldlM_cons]
    rw [show loadLine i (mkLine (p, v).1 (p, v).2) = setI i p (.str v) from
      loadLine_mkLine i p v he.1 he.2.1 he.2.2.1 he.2.2.2]
    have hstep : insLeaf i (p, v) = setI i p (.str v) := rfl
    rw [hstep]
    cases hset : setI i p (.str v) with
    | none => simp
    | some j =>
      simp only [Option.bind_eq_bind, Option.some_bind]
      exact ih j (fun x hx => hgood x (List.mem_cons_of_mem _ hx))

/-- C5: storing an in-memory well-formed index to its backing file and
loading a fresh index from that file yields a structurally identical
`(dirs, files)` pair.  `wfB` captures validity: unique keys, disjoint
`dirs`/`files`, hex checksums, component names free of `/` and line breaks
(internal whitespace is fine), file names not ending in a character
`str.strip()` removes, and no empty directory subtree. -/
theorem store_load_roundtrip (I : Index) (hwf : wfB I = true) :
    loadBody (storeLines I) = some I := by
  unfold loadBody storeLines
  have hgoods : ∀ e ∈ leaves I,
      goodVal e.2 = true ∧ e.1 ≠ [] ∧ (∀ c ∈ e.1, goodName c = true)
        ∧ (∀ c, e.1.getLast? = some c → goodTail c = true) := by
    intro e he
    have h1 := leaves_good I hwf e he
    exact ⟨h1.2.1, leaves_path_ne_nil I e he, h1.1, h1.2.2⟩
  rw [foldlM_loadLine_map (leaves I) Index.empty hgoods]
  have := fold_leaves I [] [] hwf (by intro k _; simp)
  rw [show Index.empty = Index.node [] [] from rfl, this]
  cases I
  simp [Index.dirs, Index.files]

/-- Witness index for C5: a file `a`, and a directory `d` holding the
space-containing file name `b 2` (internal whitespace round-trips). -/
def wIndexC5 : Index :=
  .node [("d", .node [] [("b 2", "00ff")])] [("a", "1a2b")]

/-- Witness for C5: the hypotheses hold on a concrete two-level index and
the round-trip reproduces it. -/
theorem store_load_roundtrip_witness :
    wfB wIndexC5 = true ∧ loadBody (storeLines wIndexC5) = some wIndexC5 := by
  have hwf : wfB wIndexC5 = true := by
    simp [wIndexC5, wfB, goodName, goodTail, goodVal, isHexChar, lenI,
      pyIsSpace, pySpace]
  exact ⟨hwf, store_load_roundtrip wIndexC5 hwf⟩

/-! ### The change taxonomy (src/changes.py as used by src/dintact.py)

Payloads follow the constructor calls in dintact.py: `index` is the
checksum string or sub-`Index` carried by the change, `size` the byte size
for progress accounting.  `Moved` is modelled from the spec (its class is
referenced by dintact.py but missing from src/): it carries the target
path, the payload checksum, and the superseded `Removed` change. -/

inductive Change where
  | AddedCopied (name : RPath) (index : Entry)
  | ModifiedCopied (name : RPath) (index : Entry)
  | Modified (name : RPath) (index : Entry) (size : Nat)
  | Corrupted (name : RPath) (size : Nat)
  | ModifiedCorrupted (name : RPath) (index : Entry) (size : Nat)
  | AddedAppeared (name : RPath) (index : Entry) (size : Nat)
  | Added (name : RPath) (index : Entry) (size : Nat)
  | ModifiedLost (name : RPath) (index : Entry) (size : Nat)
  | Lost (name : RPath) (size : Nat)
  | Removed (name : RPath) (index : Entry)
  | RemovedCorrupted (name : RPath) (index : Entry)
  | Appeared (name : RPath)
  | RemovedLost (name : RPath)
  | Moved (name : RPath) (index : Entry) (original : Change)

/-- `change.name`. -/
def cname : Change → RPath
  | .AddedCopied n _ => n
  | .ModifiedCopied n _ => n
  | .Modified n _ _ => n
  | .Corrupted n _ => n
  | .ModifiedCorrupted n _ _ => n
  | .AddedAppeared n _ _ => n
  | .Added n _ _ => n
  | .ModifiedLost n _ _ => n
  | .Lost n _ => n
  | .Removed n _ => n
  | .RemovedCorrupted n _ => n
  | .Appeared n => n
  | .RemovedLost n => n
  | .Moved n _ _ => n

/-- The concrete class of a change (`type(change)`), as a tag. -/
def ctag : Change → Nat
  | .AddedCopied _ _ => 0
  | .ModifiedCopied _ _ => 1
  | .Modified _ _ _ => 2
  | .Corrupted _ _ => 3
  | .ModifiedCorrupted _ _ _ => 4
  | .AddedAppeared _ _ _ => 5
  | .Added _ _ _ => 6
  | .ModifiedLost _ _ _ => 7
  | .Lost _ _ => 8
  | .Removed _ _ => 9
  | .RemovedCorrupted _ _ => 10
  | .Appeared _ => 11
  | .RemovedLost _ => 12
  | .Moved _ _ _ => 13

/-- `Change.__eq__`: equality is `(type(self), self.name)`. -/
def changeEq (a b : Change) : Bool :=
  ctag a = ctag b && cname a = cname b

/-! ### Python `==` between index values

`Index.__eq__` compares the `(dirs, files)` dicts structurally; a dict
comparison is order-insensitive with unique keys.  Comparing an `Index`
against a string (either way round) is `False`. -/

/-- Order-insensitive equality on the `files` dicts. -/
def beqFiles (fs1 fs2 : List (String × String)) : Bool :=
  fs1.length = fs2.length && fs1.all (fun e => lookupA e.1 fs2 = some e.2)

theorem sizeOf_lookupA_index {l : List (String × Index)} {k : String} {t : Index}
    (h : lookupA k l = some t) : sizeOf t < sizeOf l := by
  induction l with
  | nil => simp [lookupA] at h
  | cons e rest ih =>
    obtain ⟨a, v⟩ := e
    rw [lookupA_cons] at h
    by_cases ha : a = k
    · rw [if_pos ha] at h
      cases h
      simp
      omega
    · rw [if_neg ha] at h
      have := ih h
      simp
      omega

mutual

/-- `Index.__eq__` (dict equality on `(dirs, files)`). -/
def beqIndex : Index → Index → Bool
  | .node ds1 fs1, .node ds2 fs2 =>
    ds1.length = ds2.length && beqFiles fs1 fs2 && beqDirs ds1 ds2
termination_by i _ => sizeOf i
decreasing_by
  simp
  omega

/-- All entries of the first `dirs` dict equal the corresponding entry of
the second. -/
def beqDirs : List (String × Index) → List (String × Index) → Bool
  | [], _ => true
  | (k, v) :: t, ds2 =>
    (match h : lookupA k ds2 with
     | some v2 => beqIndex v v2
     | none => false) && beqDirs t ds2
termination_by l _ => sizeOf l
decreasing_by
  · simp
    omega
  · simp

end

/-- Python `==` on `str | Index` values. -/
def beqEntry : Entry → Entry → Bool
  | .str a, .str b => a = b
  | .sub a, .sub b => beqIndex a b
  | _, _ => false

/-- Python `==` between an index value and a checksum string. -/
def entryBeqStr : Entry → String → Bool
  | .str s, h => s = h
  | .sub _, _ => false

/-! ### Filesystem model and tree hashing

A directory tree with byte-list file contents.  The ignore filter
(`is_relevant`, spec component B, out of the claims' scope) is an abstract
relevance predicate on (absolute-path, subtree). -/

inductive FSTree where
  | file (content : Bytes)
  | dir (children : List (String × FSTree))

theorem sizeOf_lookupA_fstree {l : List (String × FSTree)} {k : String} {t : FSTree}
    (h : lookupA k l = some t) : sizeOf t < sizeOf l := by
  induction l with
  | nil => simp [lookupA] at h
  | cons e rest ih =>
    obtain ⟨a, v⟩ := e
    rw [lookupA_cons] at h
    by_cases ha : a = k
    · rw [if_pos ha] at h
      cases h
      simp
      omega
    · rw [if_neg ha] at h
      have := ih h
      simp
      omega

/-- `hash_tree` on a directory: index of all descendant files (`rglob`)
keyed by relative path, plus the total byte size.  Intermediate directories
holding no files never receive an index node, matching the insert-per-file
construction of the source. -/
def htDir (hash : Bytes → String) : List (String × FSTree) → Index × Nat
  | [] => (.node [] [], 0)
  | (n, .file c) :: rest =>
    let r := htDir hash rest
    (.node r.1.dirs ((n, hash c) :: r.1.files), c.length + r.2)
  | (n, .dir cs) :: rest =>
    let r := htDir hash rest
    let s := htDir hash cs
    (if lenI s.1 = 0 then r.1 else .node ((n, s.1) :: r.1.dirs) r.1.files, s.2 + r.2)

/-- `hash_tree(path)`: `(checksum, size)` for a file, `(sub-index, size)`
for a directory. -/
def hash_tree (hash : Bytes → String) : FSTree → Entry × Nat
  | .file c => (.str (hash c), c.length)
  | .dir cs => (.sub (htDir hash cs).1, (htDir hash cs).2)

/-! ### `walk_trees` (src/dintact.py lines 55-140) -/

/-- `_compare_files`: compare `hot/path` and `cold/path` (both files)
against the cold index.  Branch structure follows the source; the
`path in cold_index` test and the `cold_index[path]` access are fused into
one match on `getI` (they agree by `getI_isSome_iff_memI`). -/
def compare_files (hash : Bytes → String) (cold_index : Index) (path : RPath)
    (hot cold : Bytes) : List Change :=
  let r := hash_compare_files hash (some hot) (some cold)
  let hot_hash := r.1
  let cold_hash := r.2.1
  if r.2.2 then
    match getI cold_index path with
    | none => [.AddedCopied path (.str hot_hash)]
    | some e =>
      if entryBeqStr e cold_hash = false then [.ModifiedCopied path (.str hot_hash)]
      else []
  else
    match getI cold_index path with
    | none => [.AddedAppeared path (.str hot_hash) hot.length]
    | some e =>
      if entryBeqStr e cold_hash = false then
        if entryBeqStr e hot_hash then [.Corrupted path hot.length]
        else [.ModifiedCorrupted path (.str hot_hash) hot.length]
      else [.Modified path (.str hot_hash) hot.length]

/-- The spec's file-case truth table, one row per line, over
(entry present?, cold_hash vs index, hot_hash vs index, byte-equality).
Cells unreachable for an actual hash function (byte-equal files with
differing hash relations) emit no change. -/
def fileTableSpec (entry : Option Entry) (hot_hash cold_hash : String) (eq : Bool)
    (size : Nat) (path : RPath) : List Change :=
  let present := entry.isSome
  let coldEq := match entry with | some e => entryBeqStr e cold_hash | none => false
  let hotEq := match entry with | some e => entryBeqStr e hot_hash | none => false
  if !present && eq then [.AddedCopied path (.str hot_hash)]
  else if !present && !eq then [.AddedAppeared path (.str hot_hash) size]
  else if present && coldEq && hotEq && eq then []
  else if present && !coldEq && eq then [.ModifiedCopied path (.str hot_hash)]
  else if present && coldEq && !eq then [.Modified path (.str hot_hash) size]
  else if present && !coldEq && hotEq && !eq then [.Corrupted path size]
  else if present && !coldEq && !hotEq && !eq then [.ModifiedCorrupted path (.str hot_hash) size]
  else []

/-- Is a looked-up index value a checksum string? (`isinstance(sub_index, str)`). -/
def isStrEntry : Option Entry → Bool
  | some (.str _) => true
  | _ => false

/-- The sub-index at `path`, when the lookup yields a directory node. -/
def toSubIndex : Option Entry → Option Index
  | some (.sub s) => some s
  | _ => none

/-- The set of relevant immediate children (relative names), in first-seen
order (Python materialises it as a `set`, whose iteration order the code
never relies on). -/
def relChildren (rel : RPath → FSTree → Bool) (path : RPath)
    (cs : List (String × FSTree)) : List String :=
  ((cs.filter (fun e => rel (path ++ [e.1]) e.2)).map Prod.fst).dedup

/-- The `H C I: 1 0 X` classification of one hot-only child. -/
def mkHotChange (hash : Bytes → String) (idx : Index) (path : RPath)
    (n : String) (t : FSTree) : Change :=
  let r := hash_tree hash t
  match getI idx (path ++ [n]) with
  | none => .Added (path ++ [n]) r.1 r.2
  | some e =>
    if beqEntry r.1 e then .Lost (path ++ [n]) r.2
    else .ModifiedLost (path ++ [n]) r.1 r.2

/-- The `H C I: 1 0 X` loop of `_compare_dirs`. -/
def hotLoop (hash : Bytes → String) (idx : Index) (path : RPath)
    (hcs : List (String × FSTree)) (hotOnly : List String) : Option (List Change) :=
  hotOnly.mapM (fun n => (lookupA n hcs).map (mkHotChange hash idx path n))

/-- The `H C I: 0 1 X` classification of one cold-only child with an index
entry. -/
def mkColdChange (hash : Bytes → String) (path : RPath) (n : String)
    (e : Entry) (t : FSTree) : Change :=
  if beqEntry (hash_tree hash t).1 e then .Removed (path ++ [n]) e
  else .RemovedCorrupted (path ++ [n]) e

/-- The `H C I: 0 1 X` loop of `_compare_dirs`. -/
def coldLoop (hash : Bytes → String) (idx : Index) (path : RPath)
    (ccs : List (String × FSTree)) (coldOnly : List String) : Option (List Change) :=
  coldOnly.mapM (fun n =>
    match getI idx (path ++ [n]) with
    | none => some (.Appeared (path ++ [n]))
    | some e => (lookupA n ccs).map (mkColdChange hash path n e))

mutual

/-- `walk_trees`: compare hot subtree, cold subtree and cold index under
`path`; `none` models the `NotImplementedError` on file/directory name
collisions.  The four regions are emitted in source order: hot-only,
cold-only, index-only, then the recursion over shared children. -/
def walk_trees (hash : Bytes → String) (rel : RPath → FSTree → Bool) (idx : Index) :
    RPath → FSTree → FSTree → Option (List Change)
  | path, .file hot, .file cold => some (compare_files hash idx path hot cold)
  | path, .dir hcs, .dir ccs =>
    if isStrEntry (getI idx path) then none
    else
      let subN := toSubIndex (getI idx path)
      let hotNames := relChildren rel path hcs
      let coldNames := relChildren rel path ccs
      let idxNames := match subN with | some s => iterdirI s | none => []
      let hotOnly := hotNames.filter (fun n => !(coldNames.contains n))
      let coldOnly := coldNames.filter (fun n => !(hotNames.contains n))
      let idxOnly := (idxNames.dedup).filter
        (fun n => !(hotNames.contains n) && !(coldNames.contains n))
      match hotLoop hash idx path hcs hotOnly with
      | none => none
      | some hc =>
        match coldLoop hash idx path ccs coldOnly with
        | none => none
        | some cc =>
          let rl := idxOnly.map (fun n => Change.RemovedLost (path ++ [n]))
          match wtKids hash rel idx path (hotNames.filter (fun n => coldNames.contains n)) hcs ccs with
          | none => none
          | some kids => some (hc ++ cc ++ rl ++ kids)
  | _, _, _ => none
termination_by path h c => (sizeOf h, 0)
decreasing_by
  simp
  omega

/-- The recursion of `_compare_dirs` over `hot_children & cold_children`. -/
def wtKids (hash : Bytes → String) (rel : RPath → FSTree → Bool) (idx : Index) :
    RPath → List String → List (String × FSTree) → List (String × FSTree) →
    Option (List Change)
  | _, [], _, _ => some []
  | path, n :: ns, hcs, ccs =>
    match hh : lookupA n hcs, lookupA n ccs with
    | some ht, some ct =>
      match walk_trees hash rel idx (path ++ [n]) ht ct with
      | none => none
      | some c1 =>
        match wtKids hash rel idx path ns hcs ccs with
        | none => none
        | some rest => some (c1 ++ rest)
    | _, _ => none
termination_by path ns hcs ccs => (sizeOf hcs, ns.length + 1)
decreasing_by
  · have := sizeOf_lookupA_fstree hh
    exact Prod.Lex.left _ _ this
  · exact Prod.Lex.right _ (by simp only [List.length_cons]; omega)

end

/-- Membership and lookup agree: `path in index` iff `index[path]` succeeds
(justifies fusing the source's contains-then-subscript pattern). -/
theorem getI_isSome_iff_memI (p : RPath) : ∀ (i : Index), (getI i p).isSome = memI i p := by
  induction p with
  | nil =>
    intro i
    simp [getI, memI]
  | cons k rest ih =>
    intro i
    obtain ⟨ds, fs⟩ := i
    cases rest with
    | nil =>
      cases hfs : lookupA k fs with
      | some v => simp [getI, memI, hfs]
      | none =>
        cases hds : lookupA k ds with
        | some d => simp [getI, memI, hfs, hds]
        | none => simp [getI, memI, hfs, hds]
    | cons k' ks =>
      cases hds : lookupA k ds with
      | some sub => simp [getI, memI, hds, ih sub]
      | none => simp [getI, memI, hds]

theorem hcf_fst (hash : Bytes → String) (hot cold : Bytes) :
    (hash_compare_files hash (some hot) (some cold)).1 = hash hot := by
  show hash (slurp (some hot)).flatten = hash hot
  rw [show slurp (some hot) = chunkify hot from rfl, flatten_chunkify]

theorem hcf_snd (hash : Bytes → String) (hot cold : Bytes) :
    (hash_compare_files hash (some hot) (some cold)).2.1 = hash cold := by
  show hash (slurp (some cold)).flatten = hash cold
  rw [show slurp (some cold) = chunkify cold from rfl, flatten_chunkify]

theorem hcf_eqflag (hash : Bytes → String) (hot cold : Bytes) :
    (hash_compare_files hash (some hot) (some cold)).2.2 = decide (hot = cold) := by
  show eqChunks (slurp (some hot)) (slurp (some cold)) = decide (hot = cold)
  rw [show slurp (some hot) = chunkify hot from rfl,
      show slurp (some cold) = chunkify cold from rfl, eqChunks_eq_beq]
  by_cases h : hot = cold
  · subst h
    simp
  · have hne : chunkify hot ≠ chunkify cold := fun hc => h (chunkify_inj hc)
    simp [h, hne]

theorem compare_files_eq_table (hash : Bytes → String) (idx : Index) (path : RPath)
    (hot cold : Bytes) :
    compare_files hash idx path hot cold
      = fileTableSpec (getI idx path) (hash hot) (hash cold)
          (decide (hot = cold)) hot.length path := by
  simp only [compare_files, fileTableSpec, hcf_fst, hcf_snd, hcf_eqflag]
  cases hget : getI idx path with
  | none => cases hd : decide (hot = cold) <;> simp
  | some e =>
    cases hd : decide (hot = cold) with
    | true =>
      by_cases hc : entryBeqStr e (hash cold)
      · by_cases hh : entryBeqStr e (hash hot) <;> simp [hc, hh]
      · simp [hc]
    | false =>
      by_cases hc : entryBeqStr e (hash cold)
      · simp [hc]
      · by_cases hh : entryBeqStr e (hash hot) <;> simp [hc, hh]

/-- C1: for a relative path where both `hot/p` and `cold/p` are files,
`walk_trees` returns exactly the change (or none) prescribed by the
file-case truth table over (presence of `cold_index[p]`, cold hash vs
index, hot hash vs index, byte-equality); byte-equality is byte-list
equality of the two contents and each file's hash is the hash of its
content. -/
theorem walk_trees_file_table (hash : Bytes → String) (rel : RPath → FSTree → Bool)
    (idx : Index) (path : RPath) (hot cold : Bytes) :
    walk_trees hash rel idx path (.file hot) (.file cold)
      = some (fileTableSpec (getI idx path) (hash hot) (hash cold)
          (decide (hot = cold)) hot.length path) := by
  have hstep : walk_trees hash rel idx path (.file hot) (.file cold)
      = some (compare_files hash idx path hot cold) := by
    simp [walk_trees]
  rw [hstep, compare_files_eq_table]

/-! ### C2: the hot-only region of `_compare_dirs` -/

/-- `hot_children \ cold_children` (relevant relative names present under
hot only). -/
def hotOnlyNames (rel : RPath → FSTree → Bool) (path : RPath)
    (hcs ccs : List (String × FSTree)) : List String :=
  (relChildren rel path hcs).filter (fun n => !((relChildren rel path ccs).contains n))

/-- The change C2 predicts for a hot-only child `h`, from the spec's words:
hash the hot subtree to `(sub, size)`; `Added` when `h ∉ cold_index`,
`Lost` when the hashed subtree equals `cold_index[h]`, else `ModifiedLost`. -/
def specHotChange (hash : Bytes → String) (idx : Index) (path : RPath)
    (n : String) (t : FSTree) : Change :=
  let sub := (hash_tree hash t).1
  let size := (hash_tree hash t).2
  if memI idx (path ++ [n]) = false then .Added (path ++ [n]) sub size
  else match getI idx (path ++ [n]) with
    | some e =>
      if beqEntry sub e then .Lost (path ++ [n]) size
      else .ModifiedLost (path ++ [n]) sub size
    | none => .Added (path ++ [n]) sub size

theorem specHotChange_eq_mkHotChange (hash : Bytes → String) (idx : Index)
    (path : RPath) (n : String) (t : FSTree) :
    specHotChange hash idx path n t = mkHotChange hash idx path n t := by
  unfold specHotChange mkHotChange
  have hiff := getI_isSome_iff_memI (path ++ [n]) idx
  cases hget : getI idx (path ++ [n]) with
  | none =>
    rw [hget] at hiff
    simp only [Option.isSome_none] at hiff
    rw [if_pos hiff.symm]
  | some e =>
    rw [hget] at hiff
    simp only [Option.isSome_some] at hiff
    rw [if_neg (by rw [← hiff]; simp)]

theorem cname_mkHotChange (hash : Bytes → String) (idx : Index) (path : RPath)
    (n : String) (t : FSTree) : cname (mkHotChange hash idx path n t) = path ++ [n] := by
  unfold mkHotChange
  cases getI idx (path ++ [n]) with
  | none => rfl
  | some e =>
    by_cases hb : beqEntry (hash_tree hash t).1 e <;> simp [hb, cname]

theorem cname_mkColdChange (hash : Bytes → String) (path : RPath) (n : String)
    (e : Entry) (t : FSTree) : cname (mkColdChange hash path n e t) = path ++ [n] := by
  unfold mkColdChange
  by_cases hb : beqEntry (hash_tree hash t).1 e <;> simp [hb, cname]

theorem cname_fileTableSpec (entry : Option Entry) (hotH coldH : String) (eq : Bool)
    (size : Nat) (path : RPath) :
    ∀ c ∈ fileTableSpec entry hotH coldH eq size path, cname c = path := by
  intro c hc
  unfold fileTableSpec at hc
  dsimp only at hc
  split_ifs at hc <;>
    simp only [List.mem_singleton, List.not_mem_nil] at hc <;>
    first
      | (subst hc; rfl)
      | exact hc.elim

theorem cname_compare_files (hash : Bytes → String) (idx : Index) (path : RPath)
    (hot cold : Bytes) : ∀ c ∈ compare_files hash idx path hot cold, cname c = path := by
  rw [compare_files_eq_table]
  exact cname_fileTableSpec _ _ _ _ _ _

theorem hotLoop_names (hash : Bytes → String) (idx : Index) (path : RPath)
    (hcs : List (String × FSTree)) :
    ∀ (names : List String) (hc : List Change),
    hotLoop hash idx path hcs names = some hc →
    ∀ c ∈ hc, ∃ m ∈ names, cname c = path ++ [m] := by
  intro names
  induction names with
  | nil =>
    intro hc h c hcm
    simp only [hotLoop, List.mapM_nil, pure, Option.some.injEq] at h
    subst h
    simp at hcm
  | cons m ms ihm =>
    intro hc h c hcm
    simp only [hotLoop, List.mapM_cons] at h
    cases hlk : lookupA m hcs with
    | none =>
      rw [hlk] at h
      simp at h
    | some t =>
      rw [hlk] at h
      simp only [Option.map_some', Option.bind_eq_bind, Option.some_bind] at h
      cases hms : ms.mapM (fun n => (lookupA n hcs).map (mkHotChange hash idx path n)) with
      | none =>
        rw [hms] at h
        simp at h
      | some ys =>
        rw [hms] at h
        simp only [Option.some_bind, pure, Option.some.injEq] at h
        subst h
        rcases List.mem_cons.mp hcm with rfl | hys
        · exact ⟨m, by simp, cname_mkHotChange hash idx path m t⟩
        · obtain ⟨m', hm', hn'⟩ := ihm ys hms c hys
          exact ⟨m', List.mem_cons_of_mem _ hm', hn'⟩

theorem hotLoop_filter (hash : Bytes → String) (idx : Index) (path : RPath)
    (hcs : List (String × FSTree)) :
    ∀ (names : List String) (hc : List Change) (h : String),
    hotLoop hash idx path hcs names = some hc → names.Nodup → h ∈ names →
    ∃ ht, lookupA h hcs = some ht ∧
      hc.filter (fun c => decide (cname c = path ++ [h]))
        = [mkHotChange hash idx path h ht] := by
  intro names
  induction names with
  | nil =>
    intro hc h _ _ hmem
    simp at hmem
  | cons m ms ihm =>
    intro hc h hfold hnd hmem
    simp only [hotLoop, List.mapM_cons] at hfold
    cases hlk : lookupA m hcs with
    | none =>
      rw [hlk] at hfold
      simp at hfold
    | some t =>
      rw [hlk] at hfold
      simp only [Option.map_some', Option.bind_eq_bind, Option.some_bind] at hfold
      cases hms : ms.mapM (fun n => (lookupA n hcs).map (mkHotChange hash idx path n)) with
      | none =>
        rw [hms] at hfold
        simp at hfold
      | some ys =>
        rw [hms] at hfold
        simp only [Option.some_bind, pure, Option.some.injEq] at hfold
        subst hfold
        rcases List.mem_cons.mp hmem with rfl | hinms
        · refine ⟨t, hlk, ?_⟩
          rw [List.filter_cons]
          rw [if_pos (by simp [cname_mkHotChange])]
          have hrest : ys.filter (fun c => decide (cname c = path ++ [h])) = [] := by
            apply List.filter_eq_nil.mpr
            intro c hcys
            obtain ⟨m', hm', hn'⟩ := hotLoop_names hash idx path hcs ms ys hms c hcys
            have hne : m' ≠ h := by
              intro heq
              subst heq
              exact (List.nodup_cons.mp hnd).1 hm'
            simp only [decide_eq_true_eq]
            rw [hn']
            intro hcontra
            exact hne (by simpa using List.append_inj_right hcontra rfl)
          rw [hrest]
        · have hne : m ≠ h := by
            intro heq
            subst heq
            exact (List.nodup_cons.mp hnd).1 hinms
          obtain ⟨ht, hht, hfil⟩ := ihm ys h hms (List.nodup_cons.mp hnd).2 hinms
          refine ⟨ht, hht, ?_⟩
          rw [List.filter_cons]
          rw [if_neg (by
            simp only [decide_eq_true_eq]
            rw [cname_mkHotChange]
            intro hcontra
            exact hne (by simpa using List.append_inj_right hcontra rfl))]
          exact hfil

theorem coldLoop_names (hash : Bytes → String) (idx : Index) (path : RPath)
    (ccs : List (String × FSTree)) :
    ∀ (names : List String) (cc : List Change),
    coldLoop hash idx path ccs names = some cc →
    ∀ c ∈ cc, ∃ m ∈ names, cname c = path ++ [m] := by
  intro names
  induction names with
  | nil =>
    intro cc h c hcm
    simp only [coldLoop, List.mapM_nil, pure, Option.some.injEq] at h
    subst h
    simp at hcm
  | cons m ms ihm =>
    intro cc h c hcm
    simp only [coldLoop, List.mapM_cons] at h
    have hrec : ∀ y, (match getI idx (path ++ [m]) with
        | none => some (Change.Appeared (path ++ [m]))
        | some e => (lookupA m ccs).map (mkColdChange hash path m e)) = some y →
        cname y = path ++ [m] := by
      intro y hy
      cases hget : getI idx (path ++ [m]) with
      | none =>
        rw [hget] at hy
        simp only [Option.some.injEq] at hy
        subst hy
        rfl
      | some e =>
        rw [hget] at hy
        cases hlk : lookupA m ccs with
        | none =>
          rw [hlk] at hy
          simp at hy
        | some t =>
          rw [hlk] at hy
          simp only [Option.map_some', Option.some.injEq] at hy
          subst hy
          exact cname_mkColdChange hash path m e t
    cases hy : (match getI idx (path ++ [m]) with
        | none => some (Change.Appeared (path ++ [m]))
        | some e => (lookupA m ccs).map (mkColdChange hash path m e)) with
    | none =>
      rw [hy] at h
      simp at h
    | some y =>
      rw [hy] at h
      simp only [Option.bind_eq_bind, Option.some_bind] at h
      cases hms : ms.mapM (fun n => match getI idx (path ++ [n]) with
          | none => some (Change.Appeared (path ++ [n]))
          | some e => (lookupA n ccs).map (mkColdChange hash path n e)) with
      | none =>
        rw [hms] at h
        simp at h
      | some ys =>
        rw [hms] at h
        simp only [Option.some_bind, pure, Option.some.injEq] at h
        subst h
        rcases List.mem_cons.mp hcm with rfl | hys
        · exact ⟨m, by simp, hrec c hy⟩
        · obtain ⟨m', hm', hn'⟩ := ihm ys hms c hys
          exact ⟨m', List.mem_cons_of_mem _ hm', hn'⟩

/-- `cold_children \ hot_children`. -/
def coldOnlyNames (rel : RPath → FSTree → Bool) (path : RPath)
    (hcs ccs : List (String × FSTree)) : List String :=
  (relChildren rel path ccs).filter (fun n => !((relChildren rel path hcs).contains n))

/-- `hot_children & cold_children`. -/
def commonNames (rel : RPath → FSTree → Bool) (path : RPath)
    (hcs ccs : List (String × FSTree)) : List String :=
  (relChildren rel path hcs).filter (fun n => (relChildren rel path ccs).contains n)

/-- `sub_index.iterdir()` relative names (empty when no sub-index). -/
def idxChildNames (idx : Index) (path : RPath) : List String :=
  match toSubIndex (getI idx path) with
  | some s => iterdirI s
  | none => []

/-- `index_children \ hot_children \ cold_children`. -/
def idxOnlyNames (rel : RPath → FSTree → Bool) (idx : Index) (path : RPath)
    (hcs ccs : List (String × FSTree)) : List String :=
  ((idxChildNames idx path).dedup).filter
    (fun n => !((relChildren rel path hcs).contains n)
      && !((relChildren rel path ccs).contains n))

/-- Inversion of a successful `walk_trees` run on two directories into its
four regions. -/
theorem walk_trees_dir_inv (hash : Bytes → String) (rel : RPath → FSTree → Bool)
    (idx : Index) (path : RPath) (hcs ccs : List (String × FSTree))
    (out : List Change)
    (hwt : walk_trees hash rel idx path (.dir hcs) (.dir ccs) = some out) :
    isStrEntry (getI idx path) = false ∧
    ∃ hc cc kids,
      hotLoop hash idx path hcs (hotOnlyNames rel path hcs ccs) = some hc ∧
      coldLoop hash idx path ccs (coldOnlyNames rel path hcs ccs) = some cc ∧
      wtKids hash rel idx path (commonNames rel path hcs ccs) hcs ccs = some kids ∧
      out = hc ++ cc
        ++ (idxOnlyNames rel idx path hcs ccs).map (fun n => Change.RemovedLost (path ++ [n]))
        ++ kids := by
  rw [walk_trees] at hwt
  cases hstr : isStrEntry (getI idx path) with
  | true =>
    rw [hstr] at hwt
    simp at hwt
  | false =>
    rw [hstr] at hwt
    simp only [Bool.false_eq_true, if_false] at hwt
    refine ⟨rfl, ?_⟩
    cases hhc : hotLoop hash idx path hcs (hotOnlyNames rel path hcs ccs) with
    | none =>
      rw [show hotOnlyNames rel path hcs ccs
          = (relChildren rel path hcs).filter
              (fun n => !((relChildren rel path ccs).contains n)) from rfl] at hhc
      rw [hhc] at hwt
      simp at hwt
    | some hc =>
      rw [show hotOnlyNames rel path hcs ccs
          = (relChildren rel path hcs).filter
              (fun n => !((relChildren rel path ccs).contains n)) from rfl] at hhc
      rw [hhc] at hwt
      cases hcc : coldLoop hash idx path ccs (coldOnlyNames rel path hcs ccs) with
      | none =>
        rw [show coldOnlyNames rel path hcs ccs
            = (relChildren rel path ccs).filter
                (fun n => !((relChildren rel path hcs).contains n)) from rfl] at hcc
        rw [hcc] at hwt
        simp at hwt
      | some cc =>
        rw [show coldOnlyNames rel path hcs ccs
            = (relChildren rel path ccs).filter
                (fun n => !((relChildren rel path hcs).contains n)) from rfl] at hcc
        rw [hcc] at hwt
        cases hk : wtKids hash rel idx path (commonNames rel path hcs ccs) hcs ccs with
        | none =>
          rw [show commonNames rel path hcs ccs
              = (relChildren rel path hcs).filter
                  (fun n => (relChildren rel path ccs).contains n) from rfl] at hk
          rw [hk] at hwt
          simp at hwt
        | some kids =>
          rw [show commonNames rel path hcs ccs
              = (relChildren rel path hcs).filter
                  (fun n => (relChildren rel path ccs).contains n) from rfl] at hk
          rw [hk] at hwt
          simp only [Option.some.injEq] at hwt
          exact ⟨hc, cc, kids, rfl, rfl, rfl, hwt.symm⟩

theorem wtKids_cons_inv (hash : Bytes → String) (rel : RPath → FSTree → Bool)
    (idx : Index) (path : RPath) (m : String) (ms : List String)
    (hcs ccs : List (String × FSTree)) (out : List Change)
    (hwt : wtKids hash rel idx path (m :: ms) hcs ccs = some out) :
    ∃ ht ct c1 rest, lookupA m hcs = some ht ∧ lookupA m ccs = some ct ∧
      walk_trees hash rel idx (path ++ [m]) ht ct = some c1 ∧
      wtKids hash rel idx path ms hcs ccs = some rest ∧ out = c1 ++ rest := by
  rw [wtKids] at hwt
  cases hh : lookupA m hcs with
  | none =>
    rw [hh] at hwt
    simp at hwt
  | some ht =>
    rw [hh] at hwt
    cases hcct : lookupA m ccs with
    | none =>
      rw [hcct] at hwt
      simp at hwt
    | some ct =>
      rw [hcct] at hwt
      dsimp only at hwt
      cases hw : walk_trees hash rel idx (path ++ [m]) ht ct with
      | none =>
        rw [hw] at hwt
        simp at hwt
      | some c1 =>
        rw [hw] at hwt
        cases hk : wtKids hash rel idx path ms hcs ccs with
        | none =>
          rw [hk] at hwt
          simp at hwt
        | some rest =>
          rw [hk] at hwt
          simp only [Option.some.injEq] at hwt
          exact ⟨ht, ct, c1, rest, rfl, rfl, hw, rfl, hwt.symm⟩

/-- Every change reported under `path` is named by a path extending `path`
(the walker only ever descends). -/
theorem wt_names (hash : Bytes → String) (rel : RPath → FSTree → Bool) (idx : Index) :
    ∀ (n : Nat) (hotT : FSTree), sizeOf hotT ≤ n →
    ∀ (path : RPath) (coldT : FSTree) (out : List Change),
    walk_trees hash rel idx path hotT coldT = some out →
    ∀ c ∈ out, ∃ rest, cname c = path ++ rest := by
  intro n
  induction n using Nat.strong_induction_on with
  | _ n ih =>
    intro hotT hle path coldT out hwt c hc
    cases hotT with
    | file hb =>
      cases coldT with
      | file cb =>
        have heq : walk_trees hash rel idx path (.file hb) (.file cb)
            = some (compare_files hash idx path hb cb) := by
          simp [walk_trees]
        rw [heq] at hwt
        simp only [Option.some.injEq] at hwt
        subst hwt
        exact ⟨[], by simpa using cname_compare_files hash idx path hb cb c hc⟩
      | dir ccs =>
        simp [walk_trees] at hwt
    | dir hcs =>
      cases coldT with
      | file cb =>
        simp [walk_trees] at hwt
      | dir ccs =>
        obtain ⟨_, hcl, ccl, kids, hhc, hcc, hk, hout⟩ := walk_trees_dir_inv
          hash rel idx path hcs ccs out hwt
        subst hout
        rcases List.mem_append.mp hc with hc3 | hckids
        · rcases List.mem_append.mp hc3 with hc2 | hcrl
          · rcases List.mem_append.mp hc2 with hchot | hccold
            · obtain ⟨m, _, hm⟩ := hotLoop_names hash idx path hcs _ hcl hhc c hchot
              exact ⟨[m], hm⟩
            · obtain ⟨m, _, hm⟩ := coldLoop_names hash idx path ccs _ ccl hcc c hccold
              exact ⟨[m], hm⟩
          · obtain ⟨m, _, hm⟩ := List.mem_map.mp hcrl
            exact ⟨[m], by rw [← hm]; rfl⟩
        · have hkids : ∀ (ms : List String) (out' : List Change),
              wtKids hash rel idx path ms hcs ccs = some out' →
              ∀ c' ∈ out', ∃ m rest, cname c' = path ++ m :: rest := by
            intro ms
            induction ms with
            | nil =>
              intro out' hk' c' hc'
              rw [wtKids] at hk'
              simp only [Option.some.injEq] at hk'
              subst hk'
              simp at hc'
            | cons m ms' ihm =>
              intro out' hk' c' hc'
              obtain ⟨ht, ct, c1, rest, hlh, hlc, hw, hkrest, hout'⟩ :=
                wtKids_cons_inv hash rel idx path m ms' hcs ccs out' hk'
              subst hout'
              rcases List.mem_append.mp hc' with h1 | h2
              · have hsz : sizeOf ht < n := by
                  have ha := sizeOf_lookupA_fstree hlh
                  have hb : sizeOf hcs < sizeOf (FSTree.dir hcs) := by
                    simp
                  omega
                obtain ⟨r, hr⟩ := ih (sizeOf ht) hsz ht le_rfl (path ++ [m]) ct c1 hw c' h1
                refine ⟨m, r, ?_⟩
                rw [hr]
                simp
              · exact ihm _ hkrest c' h2
          obtain ⟨m, rest, hm⟩ := hkids _ kids hk c hckids
          exact ⟨m :: rest, hm⟩

theorem contains_iff_mem_str (l : List String) (a : String) :
    l.contains a = true ↔ a ∈ l :=
  List.elem_iff

theorem wtKids_names (hash : Bytes → String) (rel : RPath → FSTree → Bool)
    (idx : Index) (path : RPath) (hcs ccs : List (String × FSTree)) :
    ∀ (ms : List String) (out' : List Change),
    wtKids hash rel idx path ms hcs ccs = some out' →
    ∀ c ∈ out', ∃ m ∈ ms, ∃ rest, cname c = path ++ m :: rest := by
  intro ms
  induction ms with
  | nil =>
    intro out' hk c hc
    rw [wtKids] at hk
    simp only [Option.some.injEq] at hk
    subst hk
    simp at hc
  | cons m ms' ihm =>
    intro out' hk c hc
    obtain ⟨ht, ct, c1, rest, hlh, hlc, hw, hkrest, hout'⟩ :=
      wtKids_cons_inv hash rel idx path m ms' hcs ccs out' hk
    subst hout'
    rcases List.mem_append.mp hc with h1 | h2
    · obtain ⟨r, hr⟩ := wt_names hash rel idx (sizeOf ht) ht le_rfl (path ++ [m]) ct c1 hw c h1
      refine ⟨m, by simp, r, ?_⟩
      rw [hr]
      simp
    · obtain ⟨m', hm', r, hr⟩ := ihm _ hkrest c h2
      exact ⟨m', List.mem_cons_of_mem _ hm', r, hr⟩

/-- C2: for every pair of directories under comparison and every relevant
child `h` present under hot but not under cold, a successful `walk_trees`
run hashes the hot subtree to `(sub, size)` and emits exactly one change
named by that child: `Added(h, sub, size)` when `h` is not in the cold
index, `Lost(h, size)` when the hashed subtree equals `cold_index[h]`, and
`ModifiedLost(h, sub, size)` otherwise. -/
theorem walk_trees_hot_only (hash : Bytes → String) (rel : RPath → FSTree → Bool)
    (idx : Index) (path : RPath) (hcs ccs : List (String × FSTree))
    (out : List Change) (h : String)
    (hwt : walk_trees hash rel idx path (.dir hcs) (.dir ccs) = some out)
    (hmem : h ∈ hotOnlyNames rel path hcs ccs) :
    ∃ ht, lookupA h hcs = some ht ∧
      out.filter (fun c => decide (cname c = path ++ [h]))
        = [specHotChange hash idx path h ht] := by
  obtain ⟨_, hc, cc, kids, hhc, hcc, hk, hout⟩ :=
    walk_trees_dir_inv hash rel idx path hcs ccs out hwt
  subst hout
  have hmemHot : h ∈ relChildren rel path hcs ∧ h ∉ relChildren rel path ccs := by
    unfold hotOnlyNames at hmem
    have hsplit := List.mem_filter.mp hmem
    refine ⟨hsplit.1, ?_⟩
    have hb := hsplit.2
    simp only [Bool.not_eq_true'] at hb
    intro hck
    rw [(contains_iff_mem_str _ _).mpr hck] at hb
    cases hb
  have hnd : (hotOnlyNames rel path hcs ccs).Nodup := by
    unfold hotOnlyNames relChildren
    exact (List.nodup_dedup _).filter _
  obtain ⟨ht, hht, hfil⟩ := hotLoop_filter hash idx path hcs _ hc h hhc hnd hmem
  refine ⟨ht, hht, ?_⟩
  rw [List.filter_append, List.filter_append, List.filter_append, hfil]
  have hccfil : cc.filter (fun c => decide (cname c = path ++ [h])) = [] := by
    apply List.filter_eq_nil_iff.mpr
    intro c hcmem
    obtain ⟨m, hm, hn⟩ := coldLoop_names hash idx path ccs _ cc hcc c hcmem
    have hmcold : m ∈ relChildren rel path ccs := by
      unfold coldOnlyNames at hm
      exact (List.mem_filter.mp hm).1
    simp only [decide_eq_true_eq]
    rw [hn]
    intro hcontra
    have : m = h := by simpa using List.append_inj_right hcontra rfl
    subst this
    exact hmemHot.2 hmcold
  have hrlfil : ((idxOnlyNames rel idx path hcs ccs).map
      (fun n => Change.RemovedLost (path ++ [n]))).filter
      (fun c => decide (cname c = path ++ [h])) = [] := by
    apply List.filter_eq_nil_iff.mpr
    intro c hcmem
    obtain ⟨m, hm, hmc⟩ := List.mem_map.mp hcmem
    have hmnothot : m ∉ relChildren rel path hcs := by
      unfold idxOnlyNames at hm
      have hb := (List.mem_filter.mp hm).2
      simp only [Bool.and_eq_true, Bool.not_eq_true'] at hb
      intro hck
      rw [(contains_iff_mem_str _ _).mpr hck] at hb
      simp at hb
    simp only [decide_eq_true_eq]
    rw [← hmc]
    show ¬ cname (Change.RemovedLost (path ++ [m])) = path ++ [h]
    show ¬ (path ++ [m]) = path ++ [h]
    intro hcontra
    have : m = h := by simpa using List.append_inj_right hcontra rfl
    subst this
    exact hmnothot hmemHot.1
  have hkidsfil : kids.filter (fun c => decide (cname c = path ++ [h])) = [] := by
    apply List.filter_eq_nil_iff.mpr
    intro c hcmem
    obtain ⟨m, hm, r, hr⟩ := wtKids_names hash rel idx path hcs ccs _ kids hk c hcmem
    have hmcold : m ∈ relChildren rel path ccs := by
      unfold commonNames at hm
      have hb := (List.mem_filter.mp hm).2
      exact (contains_iff_mem_str _ _).mp hb
    simp only [decide_eq_true_eq]
    rw [hr]
    intro hcontra
    have hmr : m :: r = [h] := by simpa using List.append_inj_right hcontra rfl
    have : m = h := (List.cons.injEq _ _ _ _).mp hmr |>.1
    subst this
    exact hmemHot.2 hmcold
  rw [hccfil, hrlfil, hkidsfil]
  rw [specHotChange_eq_mkHotChange]
  simp

/-- Witness hash for C2 (constant; any function of the bytes works). -/
def wHash : Bytes → String := fun _ => "k"

/-- Witness for C2: hot holds file `a`, cold is empty, index is empty; the
run emits exactly `Added(a, hash, 1)`. -/
theorem walk_trees_hot_only_witness :
    ∃ ht, lookupA "a" [("a", FSTree.file [1])] = some ht ∧
      ([Change.Added ["a"] (.str "k") 1].filter
          (fun c => decide (cname c = [] ++ ["a"]))
        = [specHotChange wHash Index.empty [] "a" ht]) :=
  walk_trees_hot_only wHash (fun _ _ => true) Index.empty []
    [("a", FSTree.file [1])] [] [Change.Added ["a"] (.str "k") 1] "a"
    (by simp [walk_trees, hotLoop, coldLoop, wtKids, relChildren, isStrEntry,
      toSubIndex, getI, iterdirI, mkHotChange, hash_tree, Index.empty,
      lookupA, wHash, List.mapM.loop])
    (by simp [hotOnlyNames, relChildren, lookupA])

/-! ### C3: `find_moveds` (src/dintact.py lines 143-157)

`removeds`/`addeds` are Python dicts keyed by `change.index`; an `Index`
payload is unhashable (`MutableMapping` sets `__hash__ = None`), modelled
as `none`.  `Moved` is modelled from the spec (see `Change.Moved`).
`changes.remove(x)` removes the first element equal to `x`, where change
equality is `(type, name)` only. -/

/-- `change.index`, for the classes that define it. -/
def cindex : Change → Option Entry
  | .AddedCopied _ e => some e
  | .ModifiedCopied _ e => some e
  | .Modified _ e _ => some e
  | .Corrupted _ _ => none
  | .ModifiedCorrupted _ e _ => some e
  | .AddedAppeared _ e _ => some e
  | .Added _ e _ => some e
  | .ModifiedLost _ e _ => some e
  | .Lost _ _ => none
  | .Removed _ e => some e
  | .RemovedCorrupted _ e => some e
  | .Appeared _ => none
  | .RemovedLost _ => none
  | .Moved _ e _ => some e

/-- `type(change) is Removed`. -/
def isPureRemoved : Change → Bool
  | .Removed _ _ => true
  | _ => false

/-- `type(change) is Added`. -/
def isPureAdded : Change → Bool
  | .Added _ _ _ => true
  | _ => false

/-- `d[k].append(c)` on a `defaultdict(list)`. -/
def appendBucket (k : String) (c : Change) :
    List (String × List Change) → List (String × List Change)
  | [] => [(k, [c])]
  | (a, l) :: t => if a = k then (a, l ++ [c]) :: t else (a, l) :: appendBucket k c t

/-- One change of the bucketing pass; `none` models the `TypeError` on an
unhashable `Index` key. -/
def bStep (acc : List (String × List Change) × List (String × List Change))
    (c : Change) :
    Option (List (String × List Change) × List (String × List Change)) :=
  match c with
  | .Removed _ (.str s) => some (appendBucket s c acc.1, acc.2)
  | .Removed _ (.sub _) => none
  | .Added _ (.str s) _ => some (acc.1, appendBucket s c acc.2)
  | .Added _ (.sub _) _ => none
  | _ => some acc

/-- The bucketing loop of `find_moveds`: `(removeds, addeds)`. -/
def fillBuckets (cs : List Change) :
    Option (List (String × List Change) × List (String × List Change)) :=
  cs.foldlM bStep ([], [])

/-- Python `list.remove(x)` via an equality predicate; `none` models the
`ValueError` when no element matches. -/
def removeFirst (p : Change → Bool) : List Change → Option (List Change)
  | [] => none
  | c :: t => if p c then some t else (removeFirst p t).map (c :: ·)

/-- The body of the loop over intersecting checksums: skip unless both
buckets are singletons (`len(...) != 1`), else append the synthesized
`Moved` and remove both originals. -/
def moveKey (rm ad : List (String × List Change)) (st : List Change) (i : String) :
    Option (List Change) :=
  match (lookupA i rm).getD [], (lookupA i ad).getD [] with
  | [r], [a] =>
    match cindex a with
    | none => none
    | some e =>
      (removeFirst (fun c => changeEq c r) (st ++ [.Moved (cname a) e r])).bind
        (removeFirst (fun c => changeEq c a))
  | _, _ => some st

/-- `find_moveds`: bucket by payload checksum, then for each checksum in
`set(removeds) ∩ set(addeds)` with singleton buckets synthesize a `Moved`
and drop both originals.  The intersection is iterated in `removeds`
insertion order (Python's set order is unspecified and unused). -/
def find_moveds (cs : List Change) : Option (List Change) := do
  let bk ← fillBuckets cs
  let keys := (bk.1.map Prod.fst).filter (fun k => (lookupA k bk.2).isSome)
  keys.foldlM (moveKey bk.1 bk.2) cs

/-- Counterexample to C3: two `Removed` with the same path but different
checksums plus one matching `Added`.  The checksum `h2` has added-side
multiplicity 0, yet its `Removed(p, h2)` disappears from the list — and the
qualifying checksum `h1`'s own original `Removed(p, h1)` survives —
because `list.remove` matches by `(type, name)` only and removes the first
such element. -/
theorem find_moveds_counterexample :
    find_moveds [Change.Removed ["p"] (.str "h2"), Change.Removed ["p"] (.str "h1"),
        Change.Added ["b"] (.str "h1") 0]
      = some [Change.Removed ["p"] (.str "h1"),
          Change.Moved ["b"] (.str "h1") (Change.Removed ["p"] (.str "h1"))]
    ∧ Change.Removed ["p"] (.str "h1")
        ∈ [Change.Removed ["p"] (.str "h1"),
           Change.Moved ["b"] (.str "h1") (Change.Removed ["p"] (.str "h1"))]
    ∧ Change.Removed ["p"] (.str "h2")
        ∉ [Change.Removed ["p"] (.str "h1"),
           Change.Moved ["b"] (.str "h1") (Change.Removed ["p"] (.str "h1"))] := by
  refine ⟨rfl, by simp, by simp⟩

/-! #### Small facts about change equality and payloads -/

theorem changeEq_true_iff (c x : Change) :
    changeEq c x = true ↔ (ctag c = ctag x ∧ cname c = cname x) := by
  simp [changeEq]

theorem changeEq_refl (c : Change) : changeEq c c = true := by
  simp [changeEq]

theorem changeEq_across {c x y : Change} (h1 : changeEq c x = true)
    (h2 : changeEq c y = true) : changeEq x y = true := by
  rw [changeEq_true_iff] at h1 h2 ⊢
  exact ⟨h1.1 ▸ h2.1, h1.2 ▸ h2.2⟩

theorem ctag_of_changeEq {c x : Change} (h : changeEq c x = true) : ctag c = ctag x :=
  ((changeEq_true_iff c x).mp h).1

theorem cindex_of_ctag6 (a : Change) (h : ctag a = 6) : ∃ e, cindex a = some e := by
  cases a <;> simp [ctag] at h <;> exact ⟨_, rfl⟩

/-- `isinstance + payload == k` test for the `Removed` bucket of checksum `k`. -/
def isRemovedWith (k : String) : Change → Bool
  | .Removed _ (.str s) => s = k
  | _ => false

/-- `isinstance + payload == k` test for the `Added` bucket of checksum `k`. -/
def isAddedWith (k : String) : Change → Bool
  | .Added _ (.str s) _ => s = k
  | _ => false

theorem isRemovedWith_facts {k : String} {c : Change} (h : isRemovedWith k c = true) :
    ctag c = 9 ∧ isPureRemoved c = true ∧ cindex c = some (.str k) := by
  cases c
  case Removed n e =>
    cases e
    case str s =>
      simp only [isRemovedWith, decide_eq_true_eq] at h
      subst h
      exact ⟨rfl, rfl, rfl⟩
    case sub i => simp [isRemovedWith] at h
  all_goals simp [isRemovedWith] at h

theorem isAddedWith_facts {k : String} {c : Change} (h : isAddedWith k c = true) :
    ctag c = 6 ∧ isPureAdded c = true ∧ cindex c = some (.str k) := by
  cases c
  case Added n e sz =>
    cases e
    case str s =>
      simp only [isAddedWith, decide_eq_true_eq] at h
      subst h
      exact ⟨rfl, rfl, rfl⟩
    case sub i => simp [isAddedWith] at h
  all_goals simp [isAddedWith] at h

theorem ctag9_isPureRemoved {c : Change} : ctag c = 9 ↔ isPureRemoved c = true := by
  cases c <;> simp [ctag, isPureRemoved]

theorem ctag6_isPureAdded {c : Change} : ctag c = 6 ↔ isPureAdded c = true := by
  cases c <;> simp [ctag, isPureAdded]

/-! #### Counting matches and `list.remove` -/

/-- Number of elements of `st` equal (as Python changes) to `x`. -/
def countCh (x : Change) (st : List Change) : Nat :=
  st.countP (fun c => changeEq c x)

theorem countCh_nil (x : Change) : countCh x [] = 0 := rfl

theorem countCh_append (x : Change) (s t : List Change) :
    countCh x (s ++ t) = countCh x s + countCh x t :=
  List.countP_append _ _ _

theorem countCh_singleton (x m : Change) :
    countCh x [m] = if changeEq m x then 1 else 0 := by
  simp [countCh, List.countP_cons]

theorem not_mem_of_countCh_zero {x : Change} {st : List Change}
    (h : countCh x st = 0) : x ∉ st := by
  intro hmem
  have := List.countP_eq_zero.mp h x hmem
  rw [changeEq_refl] at this
  exact this rfl

theorem removeFirst_of_countP_pos {p : Change → Bool} :
    ∀ {st : List Change}, 0 < st.countP p → ∃ st', removeFirst p st = some st' := by
  intro st
  induction st with
  | nil => simp
  | cons c t ih =>
    intro hpos
    by_cases hc : p c
    · exact ⟨t, by simp [removeFirst, hc]⟩
    · simp only [List.countP_cons, hc, if_false, Nat.add_zero] at hpos
      obtain ⟨t', ht'⟩ := ih hpos
      exact ⟨c :: t', by simp [removeFirst, hc, ht']⟩

theorem removeFirst_spec {p : Change → Bool} :
    ∀ {st st' : List Change}, removeFirst p st = some st' →
    st'.length + 1 = st.length
    ∧ st'.countP p + 1 = st.countP p
    ∧ (∀ q : Change → Bool, (∀ c, p c = true → q c = false) →
        st'.countP q = st.countP q)
    ∧ (∀ c ∈ st, p c = false → c ∈ st')
    ∧ (∀ q : Change → Bool, st'.countP q ≤ st.countP q) := by
  intro st
  induction st with
  | nil => intro st' h; simp [removeFirst] at h
  | cons c t ih =>
    intro st' h
    by_cases hc : p c
    · rw [removeFirst, if_pos hc] at h
      cases h
      refine ⟨by simp, ?_, ?_, ?_, ?_⟩
      · rw [List.countP_cons, hc]
        simp
      · intro q hq
        rw [List.countP_cons, hq c hc]
        simp
      · intro x hx hpx
        rcases List.mem_cons.mp hx with rfl | hxt
        · rw [hc] at hpx
          cases hpx
        · exact hxt
      · intro q
        rw [List.countP_cons]
        by_cases hqc : q c <;> simp [hqc]
    · rw [removeFirst, if_neg hc] at h
      cases hrec : removeFirst p t with
      | none =>
        rw [hrec] at h
        cases h
      | some t' =>
        rw [hrec] at h
        simp only [Option.map_some', Option.some.injEq] at h
        subst h
        obtain ⟨hlen, hcnt, hoth, hmem, hle⟩ := ih hrec
        refine ⟨by simp [← hlen], ?_, ?_, ?_, ?_⟩
        · rw [List.countP_cons, List.countP_cons]
          omega
        · intro q hq
          rw [List.countP_cons, List.countP_cons, hoth q hq]
        · intro x hx hpx
          rcases List.mem_cons.mp hx with rfl | hxt
          · exact List.mem_cons_self _ _
          · exact List.mem_cons_of_mem _ (hmem x hxt hpx)
        · intro q
          rw [List.countP_cons, List.countP_cons]
          have := hle q
          omega

/-! #### Bucket contents are ordered filters of the change list -/

/-- The unique element of a singleton bucket. -/
def bucketRep (m : List (String × List Change)) (i : String) : Option Change :=
  match (lookupA i m).getD [] with
  | [c] => some c
  | _ => none

/-- The `len(removeds[i]) == 1 and len(addeds[i]) == 1` guard. -/
def qualB (rm ad : List (String × List Change)) (i : String) : Bool :=
  (bucketRep rm i).isSome && (bucketRep ad i).isSome

theorem moveKey_skip {rm ad : List (String × List Change)} {st : List Change}
    {i : String} (h : qualB rm ad i = false) : moveKey rm ad st i = some st := by
  unfold qualB bucketRep at h
  unfold moveKey
  cases hr : (lookupA i rm).getD [] with
  | nil => rfl
  | cons r rt =>
    cases rt with
    | cons r2 rrest => rfl
    | nil =>
      rw [hr] at h
      cases ha : (lookupA i ad).getD [] with
      | nil => rfl
      | cons a att =>
        cases att with
        | cons a2 arest => rfl
        | nil =>
          rw [ha] at h
          simp at h

theorem moveKey_eq {rm ad : List (String × List Change)} {st : List Change}
    {i : String} {r a : Change} (hr : bucketRep rm i = some r)
    (ha : bucketRep ad i = some a) {e : Entry} (he : cindex a = some e) :
    moveKey rm ad st i
      = (removeFirst (fun c => changeEq c r) (st ++ [.Moved (cname a) e r])).bind
          (removeFirst (fun c => changeEq c a)) := by
  unfold bucketRep at hr ha
  unfold moveKey
  cases hrl : (lookupA i rm).getD [] with
  | nil =>
    rw [hrl] at hr
    cases hr
  | cons r0 rt =>
    cases rt with
    | cons r2 rrest =>
      rw [hrl] at hr
      simp at hr
    | nil =>
      rw [hrl] at hr
      simp only [Option.some.injEq] at hr
      subst hr
      cases hal : (lookupA i ad).getD [] with
      | nil =>
        rw [hal] at ha
        cases ha
      | cons a0 att =>
        cases att with
        | cons a2 arest =>
          rw [hal] at ha
          simp at ha
        | nil =>
          rw [hal] at ha
          simp only [Option.some.injEq] at ha
          subst ha
          dsimp only
          rw [he]

theorem lookupA_appendBucket_self (k : String) (c : Change) :
    ∀ (m : List (String × List Change)),
    lookupA k (appendBucket k c m) = some ((lookupA k m).getD [] ++ [c]) := by
  intro m
  induction m with
  | nil => simp [appendBucket]
  | cons e t ih =>
    obtain ⟨a, l⟩ := e
    by_cases ha : a = k
    · subst ha
      simp [appendBucket]
    · simp [appendBucket, ha, ih]

theorem lookupA_appendBucket_other {k k' : String} (hne : k ≠ k') (c : Change) :
    ∀ (m : List (String × List Change)),
    lookupA k' (appendBucket k c m) = lookupA k' m := by
  intro m
  induction m with
  | nil => simp [appendBucket, hne]
  | cons e t ih =>
    obtain ⟨a, l⟩ := e
    by_cases ha : a = k
    · subst ha
      simp [appendBucket, hne, ih]
    · by_cases ha' : a = k'
      · subst ha'
        simp [appendBucket, ha]
      · simp [appendBucket, ha, ha', ih]

theorem keys_appendBucket (k : String) (c : Change) (m : List (String × List Change)) :
    (appendBucket k c m).map Prod.fst
      = if (lookupA k m).isSome then m.map Prod.fst else m.map Prod.fst ++ [k] := by
  induction m with
  | nil => simp [appendBucket]
  | cons e t ih =>
    obtain ⟨a, l⟩ := e
    by_cases ha : a = k
    · subst ha
      simp [appendBucket]
    · simp only [appendBucket, if_neg ha, List.map_cons, lookupA_cons, ha, if_false, ih]
      by_cases hs : (lookupA k t).isSome <;> simp [hs]

theorem nodup_keys_appendBucket {k : String} {c : Change}
    {m : List (String × List Change)} (h : (m.map Prod.fst).Nodup) :
    ((appendBucket k c m).map Prod.fst).Nodup := by
  rw [keys_appendBucket]
  by_cases hs : (lookupA k m).isSome
  · simpa [hs] using h
  · simp only [hs, if_false, Bool.false_eq_true]
    rw [List.nodup_append]
    refine ⟨h, List.nodup_singleton k, ?_⟩
    intro x hx
    simp only [List.mem_singleton]
    intro hxk
    subst hxk
    rw [Option.not_isSome_iff_eq_none] at hs
    exact (lookupA_eq_none_iff x m).mp hs hx

/-- `fillBuckets` never fails when the pure `Removed`/`Added` payloads are
checksum strings, and each resulting bucket is the ordered filter of the
input. -/
theorem fillBuckets_char :
    ∀ (cs : List Change) (rm0 ad0 : List (String × List Change)),
    (∀ c ∈ cs, isPureRemoved c = true ∨ isPureAdded c = true →
      ∃ s, cindex c = some (.str s)) →
    ∃ rm ad, cs.foldlM bStep (rm0, ad0) = some (rm, ad)
      ∧ (∀ k, lookupA k rm
          = match lookupA k rm0 with
            | some l => some (l ++ cs.filter (isRemovedWith k))
            | none => if (cs.filter (isRemovedWith k)).isEmpty then none
                      else some (cs.filter (isRemovedWith k)))
      ∧ (∀ k, lookupA k ad
          = match lookupA k ad0 with
            | some l => some (l ++ cs.filter (isAddedWith k))
            | none => if (cs.filter (isAddedWith k)).isEmpty then none
                      else some (cs.filter (isAddedWith k)))
      ∧ ((rm0.map Prod.fst).Nodup → (rm.map Prod.fst).Nodup)
      ∧ ((ad0.map Prod.fst).Nodup → (ad.map Prod.fst).Nodup) := by
  intro cs
  induction cs with
  | nil =>
    intro rm0 ad0 _
    refine ⟨rm0, ad0, by simp, ?_, ?_, fun h => h, fun h => h⟩
    · intro k
      cases h : lookupA k rm0 <;> simp
    · intro k
      cases h : lookupA k ad0 <;> simp
  | cons c t ih =>
    intro rm0 ad0 hstr
    have hstd : ∀ x ∈ t, isPureRemoved x = true ∨ isPureAdded x = true →
        ∃ s, cindex x = some (.str s) :=
      fun x hx => hstr x (List.mem_cons_of_mem _ hx)
    cases c with
    | Removed n e =>
      obtain ⟨s, hs⟩ := hstr (.Removed n e) (by simp) (Or.inl rfl)
      cases e with
      | sub _ => simp [cindex] at hs
      | str s0 =>
        obtain ⟨rm, ad, hfold, hrm, had, hndr, hnda⟩ :=
          ih (appendBucket s0 (.Removed n (.str s0)) rm0) ad0 hstd
        refine ⟨rm, ad, ?_, ?_, ?_, ?_, hnda⟩
        · simpa [List.foldlM_cons, bStep] using hfold
        · intro k
          rw [hrm k]
          by_cases hk : s0 = k
          · subst hk
            rw [lookupA_appendBucket_self]
            have hfil : (Change.Removed n (.str s0) :: t).filter (isRemovedWith s0)
                = Change.Removed n (.str s0) :: t.filter (isRemovedWith s0) := by
              rw [List.filter_cons]
              simp [isRemovedWith]
            rw [hfil]
            cases hl : lookupA s0 rm0 <;> simp
          · rw [lookupA_appendBucket_other hk]
            have hfil : (Change.Removed n (.str s0) :: t).filter (isRemovedWith k)
                = t.filter (isRemovedWith k) := by
              rw [List.filter_cons]
              simp [isRemovedWith, hk]
            rw [hfil]
        · intro k
          rw [had k]
          have hfil : (Change.Removed n (.str s0) :: t).filter (isAddedWith k)
              = t.filter (isAddedWith k) := by
            rw [List.filter_cons]
            simp [isAddedWith]
          rw [hfil]
        · intro hnd
          exact hndr (nodup_keys_appendBucket hnd)
    | Added n e sz =>
      obtain ⟨s, hs⟩ := hstr (.Added n e sz) (by simp) (Or.inr rfl)
      cases e with
      | sub _ => simp [cindex] at hs
      | str s0 =>
        obtain ⟨rm, ad, hfold, hrm, had, hndr, hnda⟩ :=
          ih rm0 (appendBucket s0 (.Added n (.str s0) sz) ad0) hstd
        refine ⟨rm, ad, ?_, ?_, ?_, hndr, ?_⟩
        · simpa [List.foldlM_cons, bStep] using hfold
        · intro k
          rw [hrm k]
          have hfil : (Change.Added n (.str s0) sz :: t).filter (isRemovedWith k)
              = t.filter (isRemovedWith k) := by
            rw [List.filter_cons]
            simp [isRemovedWith]
          rw [hfil]
        · intro k
          rw [had k]
          by_cases hk : s0 = k
          · subst hk
            rw [lookupA_appendBucket_self]
            have hfil : (Change.Added n (.str s0) sz :: t).filter (isAddedWith s0)
                = Change.Added n (.str s0) sz :: t.filter (isAddedWith s0) := by
              rw [List.filter_cons]
              simp [isAddedWith]
            rw [hfil]
            cases hl : lookupA s0 ad0 <;> simp
          · rw [lookupA_appendBucket_other hk]
            have hfil : (Change.Added n (.str s0) sz :: t).filter (isAddedWith k)
                = t.filter (isAddedWith k) := by
              rw [List.filter_cons]
              simp [isAddedWith, hk]
            rw [hfil]
        · intro hnd
          exact hnda (nodup_keys_appendBucket hnd)
    | AddedCopied n e =>
      obtain ⟨rm, ad, hfold, hrm, had, hndr, hnda⟩ := ih rm0 ad0 hstd
      refine ⟨rm, ad, by simpa [List.foldlM_cons, bStep] using hfold, ?_, ?_, hndr, hnda⟩
      · intro k
        rw [hrm k]
        have hfil : (Change.AddedCopied n e :: t).filter (isRemovedWith k)
            = t.filter (isRemovedWith k) := by
          rw [List.filter_cons]
          simp [isRemovedWith]
        rw [hfil]
      · intro k
        rw [had k]
        have hfil : (Change.AddedCopied n e :: t).filter (isAddedWith k)
            = t.filter (isAddedWith k) := by
          rw [List.filter_cons]
          simp [isAddedWith]
        rw [hfil]
    | ModifiedCopied n e =>
      obtain ⟨rm, ad, hfold, hrm, had, hndr, hnda⟩ := ih rm0 ad0 hstd
      refine ⟨rm, ad, by simpa [List.foldlM_cons, bStep] using hfold, ?_, ?_, hndr, hnda⟩
      · intro k
        rw [hrm k]
        have hfil : (Change.ModifiedCopied n e :: t).filter (isRemovedWith k)
            = t.filter (isRemovedWith k) := by
          rw [List.filter_cons]
          simp [isRemovedWith]
        rw [hfil]
      · intro k
        rw [had k]
        have hfil : (Change.ModifiedCopied n e :: t).filter (isAddedWith k)
            = t.filter (isAddedWith k) := by
          rw [List.filter_cons]
          simp [isAddedWith]
        rw [hfil]
    | Modified n e sz =>
      obtain ⟨rm, ad, hfold, hrm, had, hndr, hnda⟩ := ih rm0 ad0 hstd
      refine ⟨rm, ad, by simpa [List.foldlM_cons, bStep] using hfold, ?_, ?_, hndr, hnda⟩
      · intro k
        rw [hrm k]
        have hfil : (Change.Modified n e sz :: t).filter (isRemovedWith k)
            = t.filter (isRemovedWith k) := by
          rw [List.filter_cons]
          simp [isRemovedWith]
        rw [hfil]
      · intro k
        rw [had k]
        have hfil : (Change.Modified n e sz :: t).filter (isAddedWith k)
            = t.filter (isAddedWith k) := by
          rw [List.filter_cons]
          simp [isAddedWith]
        rw [hfil]
    | Corrupted n sz =>
      obtain ⟨rm, ad, hfold, hrm, had, hndr, hnda⟩ := ih rm0 ad0 hstd
      refine ⟨rm, ad, by simpa [List.foldlM_cons, bStep] using hfold, ?_, ?_, hndr, hnda⟩
      · intro k
        rw [hrm k]
        have hfil : (Change.Corrupted n sz :: t).filter (isRemovedWith k)
            = t.filter (isRemovedWith k) := by
          rw [List.filter_cons]
          simp [isRemovedWith]
        rw [hfil]
      · intro k
        rw [had k]
        have hfil : (Change.Corrupted n sz :: t).filter (isAddedWith k)
            = t.filter (isAddedWith k) := by
          rw [List.filter_cons]
          simp [isAddedWith]
        rw [hfil]
    | ModifiedCorrupted n e sz =>
      obtain ⟨rm, ad, hfold, hrm, had, hndr, hnda⟩ := ih rm0 ad0 hstd
      refine ⟨rm, ad, by simpa [List.foldlM_cons, bStep] using hfold, ?_, ?_, hndr, hnda⟩
      · intro k
        rw [hrm k]
        have hfil : (Change.ModifiedCorrupted n e sz :: t).filter (isRemovedWith k)
            = t.filter (isRemovedWith k) := by
          rw [List.filter_cons]
          simp [isRemovedWith]
        rw [hfil]
      · intro k
        rw [had k]
        have hfil : (Change.ModifiedCorrupted n e sz :: t).filter (isAddedWith k)
            = t.filter (isAddedWith k) := by
          rw [List.filter_cons]
          simp [isAddedWith]
        rw [hfil]
    | AddedAppeared n e sz =>
      obtain ⟨rm, ad, hfold, hrm, had, hndr, hnda⟩ := ih rm0 ad0 hstd
      refine ⟨rm, ad, by simpa [List.foldlM_cons, bStep] using hfold, ?_, ?_, hndr, hnda⟩
      · intro k
        rw [hrm k]
        have hfil : (Change.AddedAppeared n e sz :: t).filter (isRemovedWith k)
            = t.filter (isRemovedWith k) := by
          rw [List.filter_cons]
          simp [isRemovedWith]
        rw [hfil]
      · intro k
        rw [had k]
        have hfil : (Change.AddedAppeared n e sz :: t).filter (isAddedWith k)
            = t.filter (isAddedWith k) := by
          rw [List.filter_cons]
          simp [isAddedWith]
        rw [hfil]
    | ModifiedLost n e sz =>
      obtain ⟨rm, ad, hfold, hrm, had, hndr, hnda⟩ := ih rm0 ad0 hstd
      refine ⟨rm, ad, by simpa [List.foldlM_cons, bStep] using hfold, ?_, ?_, hndr, hnda⟩
      · intro k
        rw [hrm k]
        have hfil : (Change.ModifiedLost n e sz :: t).filter (isRemovedWith k)
            = t.filter (isRemovedWith k) := by
          rw [List.filter_cons]
          simp [isRemovedWith]
        rw [hfil]
      · intro k
        rw [had k]
        have hfil : (Change.ModifiedLost n e sz :: t).filter (isAddedWith k)
            = t.filter (isAddedWith k) := by
          rw [List.filter_cons]
          simp [isAddedWith]
        rw [hfil]
    | Lost n sz =>
      obtain ⟨rm, ad, hfold, hrm, had, hndr, hnda⟩ := ih rm0 ad0 hstd
      refine ⟨rm, ad, by simpa [List.foldlM_cons, bStep] using hfold, ?_, ?_, hndr, hnda⟩
      · intro k
        rw [hrm k]
        have hfil : (Change.Lost n sz :: t).filter (isRemovedWith k)
            = t.filter (isRemovedWith k) := by
          rw [List.filter_cons]
          simp [isRemovedWith]
        rw [hfil]
      · intro k
        rw [had k]
        have hfil : (Change.Lost n sz :: t).filter (isAddedWith k)
            = t.filter (isAddedWith k) := by
          rw [List.filter_cons]
          simp [isAddedWith]
        rw [hfil]
    | RemovedCorrupted n e =>
      obtain ⟨rm, ad, hfold, hrm, had, hndr, hnda⟩ := ih rm0 ad0 hstd
      refine ⟨rm, ad, by simpa [List.foldlM_cons, bStep] using hfold, ?_, ?_, hndr, hnda⟩
      · intro k
        rw [hrm k]
        have hfil : (Change.RemovedCorrupted n e :: t).filter (isRemovedWith k)
            = t.filter (isRemovedWith k) := by
          rw [List.filter_cons]
          simp [isRemovedWith]
        rw [hfil]
      · intro k
        rw [had k]
        have hfil : (Change.RemovedCorrupted n e :: t).filter (isAddedWith k)
            = t.filter (isAddedWith k) := by
          rw [List.filter_cons]
          simp [isAddedWith]
        rw [hfil]
    | Appeared n =>
      obtain ⟨rm, ad, hfold, hrm, had, hndr, hnda⟩ := ih rm0 ad0 hstd
      refine ⟨rm, ad, by simpa [List.foldlM_cons, bStep] using hfold, ?_, ?_, hndr, hnda⟩
      · intro k
        rw [hrm k]
        have hfil : (Change.Appeared n :: t).filter (isRemovedWith k)
            = t.filter (isRemovedWith k) := by
          rw [List.filter_cons]
          simp [isRemovedWith]
        rw [hfil]
      · intro k
        rw [had k]
        have hfil : (Change.Appeared n :: t).filter (isAddedWith k)
            = t.filter (isAddedWith k) := by
          rw [List.filter_cons]
          simp [isAddedWith]
        rw [hfil]
    | RemovedLost n =>
      obtain ⟨rm, ad, hfold, hrm, had, hndr, hnda⟩ := ih rm0 ad0 hstd
      refine ⟨rm, ad, by simpa [List.foldlM_cons, bStep] using hfold, ?_, ?_, hndr, hnda⟩
      · intro k
        rw [hrm k]
        have hfil : (Change.RemovedLost n :: t).filter (isRemovedWith k)
            = t.filter (isRemovedWith k) := by
          rw [List.filter_cons]
          simp [isRemovedWith]
        rw [hfil]
      · intro k
        rw [had k]
        have hfil : (Change.RemovedLost n :: t).filter (isAddedWith k)
            = t.filter (isAddedWith k) := by
          rw [List.filter_cons]
          simp [isAddedWith]
        rw [hfil]
    | Moved n e o =>
      obtain ⟨rm, ad, hfold, hrm, had, hndr, hnda⟩ := ih rm0 ad0 hstd
      refine ⟨rm, ad, by simpa [List.foldlM_cons, bStep] using hfold, ?_, ?_, hndr, hnda⟩
      · intro k
        rw [hrm k]
        have hfil : (Change.Moved n e o :: t).filter (isRemovedWith k)
            = t.filter (isRemovedWith k) := by
          rw [List.filter_cons]
          simp [isRemovedWith]
        rw [hfil]
      · intro k
        rw [had k]
        have hfil : (Change.Moved n e o :: t).filter (isAddedWith k)
            = t.filter (isAddedWith k) := by
          rw [List.filter_cons]
          simp [isAddedWith]
        rw [hfil]

theorem countCh_def (x : Change) (st : List Change) :
    countCh x st = st.countP (fun c => changeEq c x) := rfl

theorem qualB_true_iff (rm ad : List (String × List Change)) (i : String) :
    qualB rm ad i = true
      ↔ (∃ r, bucketRep rm i = some r) ∧ (∃ a, bucketRep ad i = some a) := by
  simp [qualB, Option.isSome_iff_exists]

theorem fold_moveKey (rm ad : List (String × List Change)) :
    ∀ (K : List String) (st : List Change),
    K.Nodup →
    (∀ i ∈ K, ∀ r, bucketRep rm i = some r → ctag r = 9 ∧ countCh r st = 1) →
    (∀ i ∈ K, ∀ a, bucketRep ad i = some a → ctag a = 6 ∧ countCh a st = 1) →
    (∀ i ∈ K, ∀ j ∈ K, i ≠ j →
      (∀ r r', bucketRep rm i = some r → bucketRep rm j = some r' → changeEq r r' = false)
      ∧ (∀ a a', bucketRep ad i = some a → bucketRep ad j = some a' → changeEq a a' = false)) →
    ∃ st', K.foldlM (moveKey rm ad) st = some st' ∧
      st'.length + 2 * (K.filter (qualB rm ad)).length
        = st.length + (K.filter (qualB rm ad)).length ∧
      (∀ i ∈ K, ∀ r a, bucketRep rm i = some r → bucketRep ad i = some a →
        ∃ e, cindex a = some e ∧ Change.Moved (cname a) e r ∈ st'
          ∧ countCh r st' = 0 ∧ countCh a st' = 0) ∧
      (∀ c ∈ st, (∀ i ∈ K, qualB rm ad i = true → ∀ x,
          (bucketRep rm i = some x ∨ bucketRep ad i = some x) → changeEq c x = false) →
        c ∈ st') ∧
      (∀ x, ctag x ≠ 13 → countCh x st' ≤ countCh x st) ∧
      st'.countP (fun c => decide (ctag c = 13))
        = st.countP (fun c => decide (ctag c = 13)) + (K.filter (qualB rm ad)).length := by
  intro K
  induction K with
  | nil =>
    intro st _ _ _ _
    exact ⟨st, by simp, by simp, by simp, fun c hc _ => hc, fun x _ => le_rfl, by simp⟩
  | cons i K ih =>
    intro st hnd H1 H2 H3
    obtain ⟨hiK, hndK⟩ := List.nodup_cons.mp hnd
    cases hq : qualB rm ad i with
    | false =>
      have H1' : ∀ j ∈ K, ∀ r, bucketRep rm j = some r → ctag r = 9 ∧ countCh r st = 1 :=
        fun j hj => H1 j (List.mem_cons_of_mem _ hj)
      have H2' : ∀ j ∈ K, ∀ a, bucketRep ad j = some a → ctag a = 6 ∧ countCh a st = 1 :=
        fun j hj => H2 j (List.mem_cons_of_mem _ hj)
      have H3' : ∀ j ∈ K, ∀ j' ∈ K, j ≠ j' →
          (∀ r r', bucketRep rm j = some r → bucketRep rm j' = some r' → changeEq r r' = false)
          ∧ (∀ a a', bucketRep ad j = some a → bucketRep ad j' = some a' → changeEq a a' = false) :=
        fun j hj j' hj' => H3 j (List.mem_cons_of_mem _ hj) j' (List.mem_cons_of_mem _ hj')
      obtain ⟨st', hfold, hlen, hqual, hunch, hmono, h13⟩ := ih st hndK H1' H2' H3'
      refine ⟨st', ?_, ?_, ?_, ?_, hmono, ?_⟩
      · simp [List.foldlM_cons, moveKey_skip hq, hfold]
      · rw [List.filter_cons, hq]
        simpa using hlen
      · intro j hj r a hr ha
        rcases List.mem_cons.mp hj with rfl | hjK
        · exfalso
          have : qualB rm ad j = true := by
            simp [qualB, hr, ha]
          rw [hq] at this
          cases this
        · exact hqual j hjK r a hr ha
      · intro c hc hguard
        exact hunch c hc (fun j hj => hguard j (List.mem_cons_of_mem _ hj))
      · rw [List.filter_cons, hq]
        simpa using h13
    | true =>
      obtain ⟨⟨r, hr⟩, ⟨a, ha⟩⟩ := (qualB_true_iff rm ad i).mp hq
      obtain ⟨htagr, hcntr⟩ := H1 i (List.mem_cons_self _ _) r hr
      obtain ⟨htaga, hcnta⟩ := H2 i (List.mem_cons_self _ _) a ha
      obtain ⟨e, he⟩ := cindex_of_ctag6 a htaga
      set M := Change.Moved (cname a) e r with hM
      have htagM : ctag M = 13 := rfl
      have hMr : changeEq M r = false := by
        cases hx : changeEq M r with
        | false => rfl
        | true =>
          have := ctag_of_changeEq hx
          rw [htagM, htagr] at this
          cases this
      have hMa : changeEq M a = false := by
        cases hx : changeEq M a with
        | false => rfl
        | true =>
          have := ctag_of_changeEq hx
          rw [htagM, htaga] at this
          cases this
      have hra : ∀ c : Change, changeEq c r = true → changeEq c a = false := by
        intro c hcr
        cases hca : changeEq c a with
        | false => rfl
        | true =>
          have h9 := ctag_of_changeEq hcr
          have h6 := ctag_of_changeEq hca
          rw [htagr] at h9
          rw [htaga] at h6
          rw [h9] at h6
          cases h6
      have har : ∀ c : Change, changeEq c a = true → changeEq c r = false := by
        intro c hca
        cases hcr : changeEq c r with
        | false => rfl
        | true =>
          have h9 := ctag_of_changeEq hcr
          have h6 := ctag_of_changeEq hca
          rw [htagr] at h9
          rw [htaga] at h6
          rw [h9] at h6
          cases h6
      have hcnt1r : countCh r (st ++ [M]) = 1 := by
        rw [countCh_append, countCh_singleton, hMr]
        simp [hcntr]
      have hcnt1a : countCh a (st ++ [M]) = 1 := by
        rw [countCh_append, countCh_singleton, hMa]
        simp [hcnta]
      obtain ⟨st2, hst2⟩ := removeFirst_of_countP_pos
        (p := fun c => changeEq c r)
        (show 0 < (st ++ [M]).countP (fun c => changeEq c r) by
          rw [← countCh_def, hcnt1r]; omega)
      obtain ⟨hlen2, hcnt2, hoth2, hmem2, hle2⟩ := removeFirst_spec hst2
      have hcntr2 : countCh r st2 = 0 := by
        simp only [← countCh_def] at hcnt2
        rw [hcnt1r] at hcnt2
        omega
      have hcnta2 : countCh a st2 = 1 := by
        rw [countCh_def, hoth2 _ hra, ← countCh_def, hcnt1a]
      obtain ⟨st3, hst3⟩ := removeFirst_of_countP_pos
        (p := fun c => changeEq c a)
        (show 0 < st2.countP (fun c => changeEq c a) by
          rw [← countCh_def, hcnta2]; omega)
      obtain ⟨hlen3, hcnt3, hoth3, hmem3, hle3⟩ := removeFirst_spec hst3
      have hcnta3 : countCh a st3 = 0 := by
        simp only [← countCh_def] at hcnt3
        rw [hcnta2] at hcnt3
        omega
      have hcntr3 : countCh r st3 = 0 := by
        rw [countCh_def, hoth3 _ har, ← countCh_def, hcntr2]
      have hMst3 : M ∈ st3 := by
        have h1 : M ∈ st ++ [M] := by simp
        exact hmem3 M (hmem2 M h1 hMr) hMa
      have hstep : ∀ (x : Change), ctag x ≠ 13 → countCh x st3 ≤ countCh x st := by
        intro x hx
        have hMx : changeEq M x = false := by
          cases hmx : changeEq M x with
          | false => rfl
          | true =>
            have := ctag_of_changeEq hmx
            rw [htagM] at this
            exact absurd this.symm hx
        have e1 : countCh x (st ++ [M]) = countCh x st := by
          rw [countCh_append, countCh_singleton, hMx]
          simp
        have e2 := hle2 (fun c => changeEq c x)
        have e3 := hle3 (fun c => changeEq c x)
        simp only [← countCh_def] at e2 e3
        omega
      have hpres : ∀ (y : Change), ctag y = 9 ∨ ctag y = 6 →
          changeEq r y = false → changeEq a y = false →
          countCh y st3 = countCh y st := by
        intro y hy hry hay
        have hMy : changeEq M y = false := by
          cases hmy : changeEq M y with
          | false => rfl
          | true =>
            have := ctag_of_changeEq hmy
            rw [htagM] at this
            rcases hy with h | h <;> rw [h] at this <;> cases this
        have e1 : countCh y (st ++ [M]) = countCh y st := by
          rw [countCh_append, countCh_singleton, hMy]
          simp
        have e2 : st2.countP (fun c => changeEq c y) = (st ++ [M]).countP (fun c => changeEq c y) := by
          apply hoth2
          intro c hcr
          cases hcy : changeEq c y with
          | false => rfl
          | true => exact absurd (changeEq_across hcr hcy) (by rw [hry]; simp)
        have e3 : st3.countP (fun c => changeEq c y) = st2.countP (fun c => changeEq c y) := by
          apply hoth3
          intro c hca
          cases hcy : changeEq c y with
          | false => rfl
          | true => exact absurd (changeEq_across hca hcy) (by rw [hay]; simp)
        rw [countCh_def, e3, e2, ← countCh_def, e1]
      have H1' : ∀ j ∈ K, ∀ r', bucketRep rm j = some r' → ctag r' = 9 ∧ countCh r' st3 = 1 := by
        intro j hj r' hr'
        obtain ⟨ht', hc'⟩ := H1 j (List.mem_cons_of_mem _ hj) r' hr'
        refine ⟨ht', ?_⟩
        have hne : i ≠ j := fun heq => hiK (heq ▸ hj)
        have hrr' : changeEq r r' = false :=
          (H3 i (List.mem_cons_self _ _) j (List.mem_cons_of_mem _ hj) hne).1 r r' hr hr'
        have har' : changeEq a r' = false := by
          cases hx : changeEq a r' with
          | false => rfl
          | true =>
            have := ctag_of_changeEq hx
            rw [htaga, ht'] at this
            cases this
        rw [hpres r' (Or.inl ht') hrr' har', hc']
      have H2' : ∀ j ∈ K, ∀ a', bucketRep ad j = some a' → ctag a' = 6 ∧ countCh a' st3 = 1 := by
        intro j hj a' ha'
        obtain ⟨ht', hc'⟩ := H2 j (List.mem_cons_of_mem _ hj) a' ha'
        refine ⟨ht', ?_⟩
        have hne : i ≠ j := fun heq => hiK (heq ▸ hj)
        have haa' : changeEq a a' = false :=
          (H3 i (List.mem_cons_self _ _) j (List.mem_cons_of_mem _ hj) hne).2 a a' ha ha'
        have hra' : changeEq r a' = false := by
          cases hx : changeEq r a' with
          | false => rfl
          | true =>
            have := ctag_of_changeEq hx
            rw [htagr, ht'] at this
            cases this
        rw [hpres a' (Or.inr ht') hra' haa', hc']
      have H3' : ∀ j ∈ K, ∀ j' ∈ K, j ≠ j' →
          (∀ r r', bucketRep rm j = some r → bucketRep rm j' = some r' → changeEq r r' = false)
          ∧ (∀ a a', bucketRep ad j = some a → bucketRep ad j' = some a' → changeEq a a' = false) :=
        fun j hj j' hj' => H3 j (List.mem_cons_of_mem _ hj) j' (List.mem_cons_of_mem _ hj')
      obtain ⟨st', hfold, hlen, hqual, hunch, hmono, h13⟩ := ih st3 hndK H1' H2' H3'
      have hrepTags : ∀ j ∈ i :: K, ∀ x, (bucketRep rm j = some x ∨ bucketRep ad j = some x) →
          ctag x = 9 ∨ ctag x = 6 := by
        intro j hj x hx
        rcases hx with hx | hx
        · exact Or.inl (H1 j hj x hx).1
        · exact Or.inr (H2 j hj x hx).1
      refine ⟨st', ?_, ?_, ?_, ?_, ?_, ?_⟩
      · rw [List.foldlM_cons, moveKey_eq hr ha he, hst2]
        simp only [Option.bind_eq_bind, Option.some_bind, hst3]
        exact hfold
      · rw [List.filter_cons, hq]
        simp only [if_true, List.length_cons]
        have hl1 : (st ++ [M]).length = st.length + 1 := by simp
        omega
      · intro j hj r0 a0 hr0 ha0
        rcases List.mem_cons.mp hj with rfl | hjK
        · rw [hr] at hr0
          rw [ha] at ha0
          cases hr0
          cases ha0
          refine ⟨e, he, ?_, ?_, ?_⟩
          · apply hunch M hMst3
            intro j' hj' _ x hx
            have htx := hrepTags j' (List.mem_cons_of_mem _ hj') x hx
            cases hmx : changeEq M x with
            | false => rfl
            | true =>
              have := ctag_of_changeEq hmx
              rw [htagM] at this
              rcases htx with h | h <;> rw [h] at this <;> cases this
          · have := hmono r (by rw [htagr]; omega)
            omega
          · have := hmono a (by rw [htaga]; omega)
            omega
        · exact hqual j hjK r0 a0 hr0 ha0
      · intro c hc hguard
        have hcr : changeEq c r = false :=
          hguard i (List.mem_cons_self _ _) hq r (Or.inl hr)
        have hca : changeEq c a = false :=
          hguard i (List.mem_cons_self _ _) hq a (Or.inr ha)
        have hc1 : c ∈ st ++ [M] := List.mem_append_left _ hc
        have hc3 : c ∈ st3 := hmem3 c (hmem2 c hc1 hcr) hca
        exact hunch c hc3 (fun j hj => hguard j (List.mem_cons_of_mem _ hj))
      · intro x hx
        have h1 := hmono x hx
        have h2 := hstep x hx
        omega
      · have e1 : (st ++ [M]).countP (fun c => decide (ctag c = 13))
            = st.countP (fun c => decide (ctag c = 13)) + 1 := by
          rw [List.countP_append]
          simp [htagM]
        have e2 : st2.countP (fun c => decide (ctag c = 13))
            = (st ++ [M]).countP (fun c => decide (ctag c = 13)) := by
          apply hoth2
          intro c hc
          have h9 := ctag_of_changeEq hc
          rw [htagr] at h9
          simp [h9]
        have e3 : st3.countP (fun c => decide (ctag c = 13))
            = st2.countP (fun c => decide (ctag c = 13)) := by
          apply hoth3
          intro c hc
          have h6 := ctag_of_changeEq hc
          rw [htaga] at h6
          simp [h6]
        rw [List.filter_cons, hq]
        simp only [if_true, List.length_cons]
        omega

theorem countP_map_nodup {α β : Type} [DecidableEq β] (f : α → β) :
    ∀ (l : List α), (l.map f).Nodup → ∀ a ∈ l,
      l.countP (fun x => decide (f x = f a)) = 1 := by
  intro l
  induction l with
  | nil =>
    intro _ a ha
    cases ha
  | cons b t ih =>
    intro hnd a ha
    rw [List.map_cons, List.nodup_cons] at hnd
    obtain ⟨hfb, hndt⟩ := hnd
    rw [List.countP_cons]
    by_cases hba : f b = f a
    · have ht0 : t.countP (fun x => decide (f x = f a)) = 0 := by
        rw [List.countP_eq_zero]
        intro x hx
        simp only [decide_eq_true_eq]
        intro hxa
        exact hfb (List.mem_map.mpr ⟨x, hx, by rw [hxa, ← hba]⟩)
      simp [hba, ht0]
    · have haT : a ∈ t := by
        rcases List.mem_cons.mp ha with rfl | h
        · exact absurd rfl hba
        · exact h
      rw [ih hndt a haT]
      simp [hba]

theorem countCh_removed_one {cs : List Change}
    (hnR : ((cs.filter isPureRemoved).map cname).Nodup)
    {r : Change} (hr : r ∈ cs) (htag : ctag r = 9) : countCh r cs = 1 := by
  have hpt : (fun c => changeEq c r)
      = (fun c => decide (cname c = cname r) && isPureRemoved c) := by
    funext c
    by_cases h9 : ctag c = 9
    · have hp : isPureRemoved c = true := ctag9_isPureRemoved.mp h9
      simp [changeEq, htag, h9, hp, Bool.and_comm]
    · have hp : isPureRemoved c = false := by
        cases hx : isPureRemoved c
        · rfl
        · exact absurd (ctag9_isPureRemoved.mpr hx) h9
      simp [changeEq, htag, h9, hp]
  rw [countCh_def, hpt, ← List.countP_filter]
  exact countP_map_nodup cname _ hnR r
    (List.mem_filter.mpr ⟨hr, ctag9_isPureRemoved.mp htag⟩)

theorem countCh_added_one {cs : List Change}
    (hnA : ((cs.filter isPureAdded).map cname).Nodup)
    {a : Change} (ha : a ∈ cs) (htag : ctag a = 6) : countCh a cs = 1 := by
  have hpt : (fun c => changeEq c a)
      = (fun c => decide (cname c = cname a) && isPureAdded c) := by
    funext c
    by_cases h6 : ctag c = 6
    · have hp : isPureAdded c = true := ctag6_isPureAdded.mp h6
      simp [changeEq, htag, h6, hp, Bool.and_comm]
    · have hp : isPureAdded c = false := by
        cases hx : isPureAdded c
        · rfl
        · exact absurd (ctag6_isPureAdded.mpr hx) h6
      simp [changeEq, htag, h6, hp]
  rw [countCh_def, hpt, ← List.countP_filter]
  exact countP_map_nodup cname _ hnA a
    (List.mem_filter.mpr ⟨ha, ctag6_isPureAdded.mp htag⟩)

theorem bucketRep_eq_some_iff (m : List (String × List Change)) (k : String)
    (r : Change) : bucketRep m k = some r ↔ (lookupA k m).getD [] = [r] := by
  unfold bucketRep
  cases h : (lookupA k m).getD [] with
  | nil => simp
  | cons c t =>
    cases t with
    | nil => simp
    | cons c2 t2 => simp

/-- Amended C3: under the preconditions that every pure `Removed`/`Added`
carries a plain checksum payload, that the names of the pure `Removed`s are
pairwise distinct (likewise the `Added`s), and that no `Moved` is already
present, `find_moveds` succeeds; for each checksum with exactly one
`Removed(p1, h)` and exactly one `Added(p2, h, _)` the `Moved(p2, h,
Removed(p1, h))` is synthesized and both originals disappear; changes not
`==`-matching any qualifying original survive; and the output cardinality is
the input cardinality minus the number of synthesized `Moved` changes. -/
theorem find_moveds_amended (cs : List Change)
    (hstr : ∀ c ∈ cs, isPureRemoved c = true ∨ isPureAdded c = true →
      ∃ s, cindex c = some (.str s))
    (hnR : ((cs.filter isPureRemoved).map cname).Nodup)
    (hnA : ((cs.filter isPureAdded).map cname).Nodup)
    (hnoM : ∀ c ∈ cs, ctag c ≠ 13) :
    ∃ out, find_moveds cs = some out
      ∧ out.length + out.countP (fun c => decide (ctag c = 13)) = cs.length
      ∧ (∀ k r a, cs.filter (isRemovedWith k) = [r] →
          cs.filter (isAddedWith k) = [a] →
          ∃ e, cindex a = some e ∧ Change.Moved (cname a) e r ∈ out
            ∧ countCh r out = 0 ∧ countCh a out = 0)
      ∧ (∀ c ∈ cs, (∀ k r a, cs.filter (isRemovedWith k) = [r] →
          cs.filter (isAddedWith k) = [a] →
          changeEq c r = false ∧ changeEq c a = false) → c ∈ out) := by
  obtain ⟨rm, ad, hfb, hlkR, hlkA, hndR, hndA⟩ := fillBuckets_char cs [] [] hstr
  have hlkR' : ∀ k, lookupA k rm
      = if (cs.filter (isRemovedWith k)).isEmpty then none
        else some (cs.filter (isRemovedWith k)) := by
    intro k
    have h := hlkR k
    simpa using h
  have hlkA' : ∀ k, lookupA k ad
      = if (cs.filter (isAddedWith k)).isEmpty then none
        else some (cs.filter (isAddedWith k)) := by
    intro k
    have h := hlkA k
    simpa using h
  have hbR : ∀ k r, bucketRep rm k = some r ↔ cs.filter (isRemovedWith k) = [r] := by
    intro k r
    rw [bucketRep_eq_some_iff, hlkR' k]
    by_cases he : (cs.filter (isRemovedWith k)).isEmpty
    · rw [if_pos he]
      rw [List.isEmpty_iff] at he
      simp [he]
    · rw [if_neg he]
      simp
  have hbA : ∀ k a, bucketRep ad k = some a ↔ cs.filter (isAddedWith k) = [a] := by
    intro k a
    rw [bucketRep_eq_some_iff, hlkA' k]
    by_cases he : (cs.filter (isAddedWith k)).isEmpty
    · rw [if_pos he]
      rw [List.isEmpty_iff] at he
      simp [he]
    · rw [if_neg he]
      simp
  have hKnd : (((rm.map Prod.fst).filter
      (fun k => (lookupA k ad).isSome)) : List String).Nodup := by
    refine List.Nodup.filter _ (hndR ?_)
    simp
  have hmemK : ∀ k r a, bucketRep rm k = some r → bucketRep ad k = some a →
      k ∈ (rm.map Prod.fst).filter (fun k => (lookupA k ad).isSome) := by
    intro k r a hr ha
    have hr' := (bucketRep_eq_some_iff rm k r).mp hr
    have ha' := (bucketRep_eq_some_iff ad k a).mp ha
    apply List.mem_filter.mpr
    constructor
    · by_contra hk
      have hk' : lookupA k rm = none := (lookupA_eq_none_iff k rm).mpr hk
      rw [hk'] at hr'
      simp at hr'
    · cases hla : lookupA k ad with
      | none =>
        rw [hla] at ha'
        simp at ha'
      | some l => simp
  have H1 : ∀ i ∈ (rm.map Prod.fst).filter (fun k => (lookupA k ad).isSome),
      ∀ r, bucketRep rm i = some r → ctag r = 9 ∧ countCh r cs = 1 := by
    intro i _ r hr
    have hf := (hbR i r).mp hr
    have hrmem : r ∈ cs.filter (isRemovedWith i) := by simp [hf]
    obtain ⟨hrcs, hrw⟩ := List.mem_filter.mp hrmem
    have h9 := (isRemovedWith_facts hrw).1
    exact ⟨h9, countCh_removed_one hnR hrcs h9⟩
  have H2 : ∀ i ∈ (rm.map Prod.fst).filter (fun k => (lookupA k ad).isSome),
      ∀ a, bucketRep ad i = some a → ctag a = 6 ∧ countCh a cs = 1 := by
    intro i _ a ha
    have hf := (hbA i a).mp ha
    have hamem : a ∈ cs.filter (isAddedWith i) := by simp [hf]
    obtain ⟨hacs, haw⟩ := List.mem_filter.mp hamem
    have h6 := (isAddedWith_facts haw).1
    exact ⟨h6, countCh_added_one hnA hacs h6⟩
  have H3 : ∀ i ∈ (rm.map Prod.fst).filter (fun k => (lookupA k ad).isSome),
      ∀ j ∈ (rm.map Prod.fst).filter (fun k => (lookupA k ad).isSome), i ≠ j →
      (∀ r r', bucketRep rm i = some r → bucketRep rm j = some r' →
        changeEq r r' = false)
      ∧ (∀ a a', bucketRep ad i = some a → bucketRep ad j = some a' →
        changeEq a a' = false) := by
    intro i _ j _ hij
    constructor
    · intro r r' hr hr'
      have hfi := (hbR i r).mp hr
      have hfj := (hbR j r').mp hr'
      obtain ⟨hrcs, hri⟩ := List.mem_filter.mp
        (show r ∈ cs.filter (isRemovedWith i) by simp [hfi])
      obtain ⟨hrcs', hrj⟩ := List.mem_filter.mp
        (show r' ∈ cs.filter (isRemovedWith j) by simp [hfj])
      cases hx : changeEq r r' with
      | false => rfl
      | true =>
        exfalso
        have hname : cname r = cname r' := ((changeEq_true_iff r r').mp hx).2
        have hrP : r ∈ cs.filter isPureRemoved :=
          List.mem_filter.mpr ⟨hrcs, (isRemovedWith_facts hri).2.1⟩
        have hrP' : r' ∈ cs.filter isPureRemoved :=
          List.mem_filter.mpr ⟨hrcs', (isRemovedWith_facts hrj).2.1⟩
        have heq : r = r' := List.inj_on_of_nodup_map hnR hrP hrP' hname
        have h1 := (isRemovedWith_facts hri).2.2
        have h2 := (isRemovedWith_facts hrj).2.2
        rw [heq, h2] at h1
        simp only [Option.some.injEq, Entry.str.injEq] at h1
        exact hij h1.symm
    · intro a a' ha ha'
      have hfi := (hbA i a).mp ha
      have hfj := (hbA j a').mp ha'
      obtain ⟨hacs, hai⟩ := List.mem_filter.mp
        (show a ∈ cs.filter (isAddedWith i) by simp [hfi])
      obtain ⟨hacs', haj⟩ := List.mem_filter.mp
        (show a' ∈ cs.filter (isAddedWith j) by simp [hfj])
      cases hx : changeEq a a' with
      | false => rfl
      | true =>
        exfalso
        have hname : cname a = cname a' := ((changeEq_true_iff a a').mp hx).2
        have haP : a ∈ cs.filter isPureAdded :=
          List.mem_filter.mpr ⟨hacs, (isAddedWith_facts hai).2.1⟩
        have haP' : a' ∈ cs.filter isPureAdded :=
          List.mem_filter.mpr ⟨hacs', (isAddedWith_facts haj).2.1⟩
        have heq : a = a' := List.inj_on_of_nodup_map hnA haP haP' hname
        have h1 := (isAddedWith_facts hai).2.2
        have h2 := (isAddedWith_facts haj).2.2
        rw [heq, h2] at h1
        simp only [Option.some.injEq, Entry.str.injEq] at h1
        exact hij h1.symm
  obtain ⟨out, hfold, hlen, hqual, hunch, _, h13⟩ :=
    fold_moveKey rm ad ((rm.map Prod.fst).filter (fun k => (lookupA k ad).isSome))
      cs hKnd H1 H2 H3
  refine ⟨out, ?_, ?_, ?_, ?_⟩
  · simp only [find_moveds, fillBuckets, hfb, Option.bind_eq_bind, Option.some_bind,
      bind, Option.bind]
    exact hfold
  · have h0 : cs.countP (fun c => decide (ctag c = 13)) = 0 := by
      rw [List.countP_eq_zero]
      intro c hc
      simpa using hnoM c hc
    rw [h0] at h13
    omega
  · intro k r a hfr hfa
    have hr : bucketRep rm k = some r := (hbR k r).mpr hfr
    have ha : bucketRep ad k = some a := (hbA k a).mpr hfa
    exact hqual k (hmemK k r a hr ha) r a hr ha
  · intro c hc hguard
    apply hunch c hc
    intro i hiK hqi x hx
    obtain ⟨⟨r, hr⟩, ⟨a, ha⟩⟩ := (qualB_true_iff rm ad i).mp hqi
    have hfr := (hbR i r).mp hr
    have hfa := (hbA i a).mp ha
    have hg := hguard i r a hfr hfa
    rcases hx with hx | hx
    · rw [hr] at hx
      injection hx with hx
      exact hx ▸ hg.1
    · rw [ha] at hx
      injection hx with hx
      exact hx ▸ hg.2

/-- Concrete input for exercising `find_moveds_amended`. -/
def wCsC3 : List Change :=
  [Change.Removed ["p"] (.str "h1"), Change.Added ["b"] (.str "h1") 0,
   Change.Appeared ["q"]]

theorem find_moveds_amended_witness :
    ∃ out, find_moveds wCsC3 = some out
      ∧ out.length + out.countP (fun c => decide (ctag c = 13)) = wCsC3.length
      ∧ (∀ k r a, wCsC3.filter (isRemovedWith k) = [r] →
          wCsC3.filter (isAddedWith k) = [a] →
          ∃ e, cindex a = some e ∧ Change.Moved (cname a) e r ∈ out
            ∧ countCh r out = 0 ∧ countCh a out = 0)
      ∧ (∀ c ∈ wCsC3, (∀ k r a, wCsC3.filter (isRemovedWith k) = [r] →
          wCsC3.filter (isAddedWith k) = [a] →
          changeEq c r = false ∧ changeEq c a = false) → c ∈ out) :=
  find_moveds_amended wCsC3
    (by
      intro c hc
      simp only [wCsC3, List.mem_cons, List.not_mem_nil, or_false] at hc
      rcases hc with rfl | rfl | rfl
      · intro _
        exact ⟨"h1", rfl⟩
      · intro _
        exact ⟨"h1", rfl⟩
      · intro h
        rcases h with h | h <;> simp [isPureRemoved, isPureAdded] at h)
    (by simp [wCsC3, isPureRemoved, cname])
    (by simp [wCsC3, isPureAdded, cname])
    (by
      intro c hc
      simp only [wCsC3, List.mem_cons, List.not_mem_nil, or_false] at hc
      rcases hc with rfl | rfl | rfl <;> simp [ctag])

/-! ### C7: the `sync` prompting loop -/

/-- `PurePath.name`: the final path component (`""` for the empty path). -/
def pyName (p : RPath) : List Char := (p.getLast?.getD "").data

/-- Index of the last `'.'` in a name (Python `str.rfind`), `none` when absent. -/
def rfindDot : List Char → Option Nat
  | [] => none
  | c :: t =>
    match rfindDot t with
    | some i => some (i + 1)
    | none => if c = '.' then some 0 else none

/-- `PurePath.suffix`: the extension of the final component — `name[i:]` for the
last dot at `0 < i < len(name) - 1`, else `""`. -/
def pySuffix (name : List Char) : List Char :=
  match rfindDot name with
  | some i => if 0 < i ∧ i < name.length - 1 then name.drop i else []
  | none => []

/-- The guard `change.name.suffix.lower() in ['.jpg']` of the `sync` loop. -/
def isJpgSkipped (p : RPath) : Bool :=
  decide ((pySuffix (pyName p)).map Char.toLower = ".jpg".data)

/-- `yesno(prompt, default)` over an explicit input stream: empty answer gives
the default, `y`/`yes` gives `True`, `n`/`no` gives `False`, anything else asks
again; `none` when the stream runs out. -/
def yesno (d : Bool) : List String → Option (Bool × List String)
  | [] => none
  | ans :: rest =>
    if trimL ans.data = [] then some (d, rest)
    else if (trimL ans.data).map Char.toLower = "y".data
        ∨ (trimL ans.data).map Char.toLower = "yes".data then some (true, rest)
    else if (trimL ans.data).map Char.toLower = "n".data
        ∨ (trimL ans.data).map Char.toLower = "no".data then some (false, rest)
    else yesno d rest

/-- Lexicographic `<` on character lists (Python string `<`). -/
def lexLt : List Char → List Char → Bool
  | [], [] => false
  | [], _ :: _ => true
  | _ :: _, [] => false
  | a :: as, b :: bs => if a < b then true else if b < a then false else lexLt as bs

/-- `str(PurePath)`: `"."` for the empty path, else parts joined by `/`. -/
def pathStr (p : RPath) : List Char :=
  if p = [] then ".".data else (String.intercalate "/" p).data

/-- `PurePath.__lt__`, comparing the rendered strings. -/
def pathLt (a b : RPath) : Bool := lexLt (pathStr a) (pathStr b)

/-- Stable insertion used to model `list.sort(key=attrgetter('name'))`. -/
def insSorted (c : Change) : List Change → List Change
  | [] => [c]
  | d :: t => if pathLt (cname c) (cname d) then c :: d :: t else d :: insSorted c t

/-- `changes.sort(key=attrgetter('name'))` as a stable insertion sort. -/
def sortChanges (cs : List Change) : List Change :=
  cs.foldl (fun acc c => insSorted c acc) []

/-- The confirmation loop of `sync` (lines 213–218): `.jpg`-suffixed names are
skipped wholesale, every other change is put to `yesno(..., default=False)`,
and the yes-answered ones are collected in order. -/
def promptLoop : List Change → List String → Option (List Change × List String)
  | [], inputs => some ([], inputs)
  | c :: rest, inputs =>
    if isJpgSkipped (cname c) then promptLoop rest inputs
    else
      match yesno false inputs with
      | none => none
      | some (ans, inputs') =>
        (promptLoop rest inputs').map
          (fun p => (if ans then c :: p.1 else p.1, p.2))

/-- Run `yesno` `n` times on the stream, collecting the answers. -/
def runAnswers (d : Bool) : Nat → List String → Option (List Bool × List String)
  | 0, inputs => some ([], inputs)
  | n + 1, inputs =>
    match yesno d inputs with
    | none => none
    | some (b, rest) =>
      match runAnswers d n rest with
      | none => none
      | some (bs, rest') => some (b :: bs, rest')

theorem insSorted_perm (c : Change) (l : List Change) :
    (insSorted c l).Perm (c :: l) := by
  induction l with
  | nil => exact List.Perm.refl _
  | cons d t ih =>
    cases hlt : pathLt (cname c) (cname d) with
    | true => simp [insSorted, hlt]
    | false =>
      have hu : insSorted c (d :: t) = d :: insSorted c t := by
        simp [insSorted, hlt]
      rw [hu]
      exact (List.Perm.cons d ih).trans (List.Perm.swap c d t)

theorem foldl_insSorted_perm :
    ∀ (l : List Change) (acc : List Change),
      (l.foldl (fun acc c => insSorted c acc) acc).Perm (acc ++ l) := by
  intro l
  induction l with
  | nil => simp
  | cons c t ih =>
    intro acc
    have h1 := ih (insSorted c acc)
    have h2 : (insSorted c acc ++ t).Perm ((c :: acc) ++ t) :=
      (insSorted_perm c acc).append_right t
    have h3 : ((c :: acc) ++ t).Perm (acc ++ c :: t) := by
      rw [List.cons_append]
      exact List.perm_middle.symm
    exact (h1.trans h2).trans h3

theorem sortChanges_perm (cs : List Change) : (sortChanges cs).Perm cs := by
  simpa using foldl_insSorted_perm cs []

theorem promptLoop_char :
    ∀ (L : List Change) (inputs : List String),
    promptLoop L inputs =
      match runAnswers false (L.filter (fun c => !isJpgSkipped (cname c))).length
          inputs with
      | none => none
      | some (ansL, rest) =>
        some ((((L.filter (fun c => !isJpgSkipped (cname c))).zip ansL).filter
            (fun p => p.2)).map Prod.fst, rest) := by
  intro L
  induction L with
  | nil =>
    intro inputs
    simp [promptLoop, runAnswers]
  | cons c t ih =>
    intro inputs
    cases hs : isJpgSkipped (cname c) with
    | true =>
      rw [show promptLoop (c :: t) inputs = promptLoop t inputs by
        simp [promptLoop, hs]]
      rw [List.filter_cons, ih inputs]
      simp [hs]
    | false =>
      rw [show promptLoop (c :: t) inputs
          = (match yesno false inputs with
            | none => none
            | some (ans, inputs') =>
              (promptLoop t inputs').map
                (fun p => (if ans then c :: p.1 else p.1, p.2))) by
        simp [promptLoop, hs]]
      rw [List.filter_cons]
      simp only [hs, Bool.not_false, if_true, List.length_cons]
      cases hy : yesno false inputs with
      | none => simp [runAnswers, hy]
      | some pr =>
        obtain ⟨ans, inputs'⟩ := pr
        dsimp only
        rw [ih inputs']
        cases hr : runAnswers false
            (List.length (t.filter (fun c => !isJpgSkipped (cname c)))) inputs' with
        | none => simp [runAnswers, hy, hr]
        | some pbs =>
          obtain ⟨bs, rest'⟩ := pbs
          rw [show runAnswers false
              (List.length (t.filter (fun c => !isJpgSkipped (cname c))) + 1) inputs
              = some (ans :: bs, rest') by
            simp [runAnswers, hy, hr]]
          cases ans <;> simp

/-- Counterexample to C7: with a pending `yes` on the input stream, a change
whose name ends in `.jpg` is never prompted (the stream is not consumed) and
never becomes an action, while the same change under a `.txt` name is prompted
and selected. -/
theorem sync_prompting_counterexample :
    sortChanges [Change.Appeared ["a.jpg"]] = [Change.Appeared ["a.jpg"]]
    ∧ promptLoop [Change.Appeared ["a.jpg"]] ["y"] = some ([], ["y"])
    ∧ promptLoop [Change.Appeared ["b.txt"]] ["y"]
        = some ([Change.Appeared ["b.txt"]], []) := by
  exact ⟨rfl, rfl, rfl⟩

/-- C7 (amended): the sorted list is a permutation of the change list; the
confirmation loop prompts exactly the changes whose name does not carry a
(case-insensitive) `.jpg` suffix, in sorted order, and the actions are exactly
the prompted changes whose `yesno` answer was yes; an empty answer yields the
default, which `sync` passes as No. -/
theorem sync_prompting_amended (cs : List Change) (inputs : List String) :
    (sortChanges cs).Perm cs
    ∧ promptLoop (sortChanges cs) inputs
        = (match runAnswers false
              (((sortChanges cs).filter (fun c => !isJpgSkipped (cname c))).length)
              inputs with
          | none => none
          | some (ansL, rest) =>
            some (((((sortChanges cs).filter
                (fun c => !isJpgSkipped (cname c))).zip ansL).filter
                (fun p => p.2)).map Prod.fst, rest))
    ∧ (∀ s rest d, trimL s.data = [] → yesno d (s :: rest) = some (d, rest)) :=
  ⟨sortChanges_perm cs, promptLoop_char _ inputs, by
    intro s rest d h
    simp [yesno, h]⟩

theorem sync_prompting_amended_witness :
    yesno false ([""] : List String) = some (false, []) :=
  (sync_prompting_amended [] []).2.2 "" [] false rfl

/-! ### C8: the `check` subcommand -/

/-- Navigate an `FSTree` by relative path components. -/
def lookupFS : FSTree → RPath → Option FSTree
  | t, [] => some t
  | .file _, _ :: _ => none
  | .dir cs, n :: rest =>
    match lookupA n cs with
    | some t => lookupFS t rest
    | none => none
termination_by t p => p.length

/-- `hash_file(cold_dir / p)`: a missing path or a directory raises `IOError`
inside `slurp`, which swallows it, so the digest is that of the empty stream. -/
def hashFileFS (hash : Bytes → String) (t : FSTree) (p : RPath) : String :=
  match lookupFS t p with
  | some (.file c) => hash c
  | _ => hash []

/-- `walk(cold_dir)`: relative paths of the files yielded under a directory's
children, in scandir order, with relevance decided by `rel` (the gitignore-rule
machinery, which among other things excludes the index file); empty directories
contribute nothing either way. -/
def walkFilesR (rel : RPath → FSTree → Bool) : RPath → List (String × FSTree) → List RPath
  | _, [] => []
  | path, (n, t) :: rest =>
    (if rel (path ++ [n]) t then
      match t with
      | .file _ => [path ++ [n]]
      | .dir cs => walkFilesR rel (path ++ [n]) cs
      else ([] : List RPath)) ++ walkFilesR rel path rest
termination_by _ cs => sizeOf cs
decreasing_by
  all_goals simp
  all_goals omega

/-- `check` (src/dintact.py lines 24-52): count index entries whose recorded
checksum disagrees with the file's hash, plus walked files absent from the
index; print `OK: Data is intact!` when the count is zero and
`FAIL: There were N failures!` otherwise.  `check` never calls `sys.exit` and
`__main__` falls through after `func(...)` returns, so the process exit status
is 0 on both paths — the third component.  `index.items()` iterates the leaves
(directories first, then files, recursively), which is `leaves`. -/
def check (hash : Bytes → String) (rel : RPath → FSTree → Bool)
    (index : Index) (cold : List (String × FSTree)) : Nat × String × Nat :=
  let fail1 := ((leaves index).filter
      (fun e => !decide (e.2 = hashFileFS hash (.dir cold) e.1))).length
  let fail2 := ((walkFilesR rel [] cold).filter (fun p => !memI index p)).length
  let fails := fail1 + fail2
  (fails,
    if fails = 0 then "OK: Data is intact!"
    else "FAIL: There were " ++ toString fails ++ " failures!",
    0)

/-- Counterexample to C8: the index records checksum `"h"` for file `a` but the
cold directory is empty, so the data is not intact (one failure, the `FAIL`
message) — yet the process exit status is 0, refuting "exits with a non-zero
status otherwise". -/
theorem check_exit_counterexample :
    (check (fun _ => "x") (fun _ _ => true) (.node [] [("a", "h")]) []).1 = 1
    ∧ (check (fun _ => "x") (fun _ _ => true) (.node [] [("a", "h")]) []).2.1
        ≠ "OK: Data is intact!"
    ∧ (check (fun _ => "x") (fun _ _ => true) (.node [] [("a", "h")]) []).2.2 = 0
    ∧ hashFileFS (fun _ => "x") (.dir []) ["a"]
        ≠ ("h" : String) := by
  have h1 : (check (fun _ => "x") (fun _ _ => true) (.node [] [("a", "h")]) []).1
      = 1 := by
    simp [check, hashFileFS, lookupFS, walkFilesR, lookupA]
  refine ⟨h1, ?_, rfl, ?_⟩
  · have hm : (check (fun _ => "x") (fun _ _ => true) (.node [] [("a", "h")]) []).2.1
        = "FAIL: There were " ++ toString 1 ++ " failures!" := by
      simp [check, hashFileFS, lookupFS, walkFilesR, lookupA]
    rw [hm]
    decide
  · simp [hashFileFS, lookupFS, lookupA]

/-- C8 (amended): `check` prints `OK: Data is intact!` exactly when every
indexed path hashes to its recorded checksum and every walked file is present
in the index, and prints the `FAIL` message otherwise — but the process exit
status is 0 in both cases, since `check` never calls `sys.exit` and `__main__`
falls through. -/
theorem check_exit_amended (hash : Bytes → String) (rel : RPath → FSTree → Bool)
    (index : Index) (cold : List (String × FSTree)) :
    (check hash rel index cold).2.2 = 0
    ∧ ((check hash rel index cold).2.1 = "OK: Data is intact!"
        ↔ ((∀ e ∈ leaves index, e.2 = hashFileFS hash (.dir cold) e.1)
          ∧ (∀ p ∈ walkFilesR rel [] cold, memI index p = true)))
    ∧ ((check hash rel index cold).1 = 0
        ↔ (check hash rel index cold).2.1 = "OK: Data is intact!") := by
  have hne : ∀ n : Nat,
      ("FAIL: There were " ++ toString n ++ " failures!")
        ≠ ("OK: Data is intact!" : String) := by
    intro n h
    have hd : ("FAIL: There were " ++ toString n ++ " failures!").data.head?
        = ("OK: Data is intact!" : String).data.head? := by rw [h]
    have hF : ("FAIL: There were " ++ toString n ++ " failures!").data.head?
        = some ('F' : Char) := rfl
    have hO : ("OK: Data is intact!" : String).data.head? = some ('O' : Char) := rfl
    rw [hF, hO] at hd
    simp at hd
  have hfails : (check hash rel index cold).1 = 0
      ↔ ((∀ e ∈ leaves index, e.2 = hashFileFS hash (.dir cold) e.1)
        ∧ (∀ p ∈ walkFilesR rel [] cold, memI index p = true)) := by
    show ((leaves index).filter
        (fun e => !decide (e.2 = hashFileFS hash (.dir cold) e.1))).length
      + ((walkFilesR rel [] cold).filter (fun p => !memI index p)).length = 0
      ↔ _
    rw [Nat.add_eq_zero]
    rw [List.length_eq_zero, List.length_eq_zero]
    rw [List.filter_eq_nil_iff, List.filter_eq_nil_iff]
    simp
  have hmsg : (check hash rel index cold).2.1 = "OK: Data is intact!"
      ↔ (check hash rel index cold).1 = 0 := by
    show (if ((leaves index).filter
          (fun e => !decide (e.2 = hashFileFS hash (.dir cold) e.1))).length
        + ((walkFilesR rel [] cold).filter (fun p => !memI index p)).length = 0
        then "OK: Data is intact!"
        else "FAIL: There were "
          ++ toString (((leaves index).filter
              (fun e => !decide (e.2 = hashFileFS hash (.dir cold) e.1))).length
            + ((walkFilesR rel [] cold).filter (fun p => !memI index p)).length)
          ++ " failures!") = "OK: Data is intact!" ↔ _
    by_cases hf : ((leaves index).filter
        (fun e => !decide (e.2 = hashFileFS hash (.dir cold) e.1))).length
      + ((walkFilesR rel [] cold).filter (fun p => !memI index p)).length = 0
    · rw [if_pos hf]
      exact ⟨fun _ => hf, fun _ => rfl⟩
    · rw [if_neg hf]
      constructor
      · intro h
        exact absurd h (hne _)
      · intro h
        exact absurd h hf
  exact ⟨rfl, hmsg.trans hfails, hmsg.symm⟩

/-! ### C9: the reverse map and `find_deduplications` -/

/-- `defaultdict(list)`-style append for path buckets. -/
def appendBucketP (k : String) (p : RPath) :
    List (String × List RPath) → List (String × List RPath)
  | [] => [(k, [p])]
  | (a, l) :: t => if a = k then (a, l ++ [p]) :: t else (a, l) :: appendBucketP k p t

/-- Modelled from the spec: `Index.reverse`, the reverse map
`checksum → [paths]` computed on demand from the loaded state (absent from
src/index.py): every leaf `(path, checksum)` of the index, in iteration order,
is appended to its checksum's bucket. -/
def reverseI (I : Index) : List (String × List RPath) :=
  (leaves I).foldl (fun acc e => appendBucketP e.2 e.1 acc) []

/-- One step of `find_deduplications`: a surviving pure `Removed(p, h)` with a
plain-string checksum found in the reverse map is annotated (the `has_been`
suffix) with the recorded paths other than its own; everything else is left
alone. -/
def fdedupOne (I : Index) (c : Change) : Change × Option (List RPath) :=
  match c with
  | .Removed p (.str h) =>
    (match lookupA h (reverseI I) with
     | some paths => (.Removed p (.str h), some (paths.filter (fun q => decide (q ≠ p))))
     | none => (.Removed p (.str h), none))
  | _ => (c, none)

/-- `find_deduplications` (src/dintact.py lines 168-173), with the `has_been`
mutation represented as the optional duplicate-path list per change. -/
def find_deduplications (I : Index) (changes : List Change) :
    List (Change × Option (List RPath)) :=
  changes.map (fdedupOne I)

theorem lookupA_appendBucketP_self (k : String) (p : RPath) :
    ∀ (m : List (String × List RPath)),
    lookupA k (appendBucketP k p m) = some ((lookupA k m).getD [] ++ [p]) := by
  intro m
  induction m with
  | nil => simp [appendBucketP]
  | cons e t ih =>
    obtain ⟨a, l⟩ := e
    by_cases ha : a = k
    · subst ha
      simp [appendBucketP]
    · simp [appendBucketP, ha, ih]

theorem lookupA_appendBucketP_other {k k' : String} (hne : k ≠ k') (p : RPath) :
    ∀ (m : List (String × List RPath)),
    lookupA k' (appendBucketP k p m) = lookupA k' m := by
  intro m
  induction m with
  | nil => simp [appendBucketP, hne]
  | cons e t ih =>
    obtain ⟨a, l⟩ := e
    by_cases ha : a = k
    · subst ha
      simp [appendBucketP, hne, ih]
    · by_cases ha' : a = k'
      · subst ha'
        simp [appendBucketP, ha]
      · simp [appendBucketP, ha, ha', ih]

theorem foldl_appendBucketP_char :
    ∀ (es : List (RPath × String)) (acc : List (String × List RPath)) (h : String),
    lookupA h (es.foldl (fun acc e => appendBucketP e.2 e.1 acc) acc)
      = match lookupA h acc with
        | some l => some (l ++ (es.filter (fun e => decide (e.2 = h))).map Prod.fst)
        | none =>
          if (es.filter (fun e => decide (e.2 = h))).isEmpty then none
          else some ((es.filter (fun e => decide (e.2 = h))).map Prod.fst) := by
  intro es
  induction es with
  | nil =>
    intro acc h
    cases hl : lookupA h acc <;> simp [hl]
  | cons e t ih =>
    intro acc h
    rw [List.foldl_cons, ih]
    by_cases he : e.2 = h
    · have hself : lookupA h (appendBucketP e.2 e.1 acc)
          = some ((lookupA h acc).getD [] ++ [e.1]) := by
        rw [he, lookupA_appendBucketP_self]
      rw [hself]
      have hfc : (e :: t).filter (fun x => decide (x.2 = h))
          = e :: t.filter (fun x => decide (x.2 = h)) := by
        rw [List.filter_cons, if_pos (by simp [he])]
      rw [hfc]
      cases hl : lookupA h acc with
      | none => simp
      | some l => simp
    · have hoth : lookupA h (appendBucketP e.2 e.1 acc) = lookupA h acc :=
        lookupA_appendBucketP_other (fun hx => he hx) e.1 acc
      rw [hoth]
      have hfc : (e :: t).filter (fun x => decide (x.2 = h))
          = t.filter (fun x => decide (x.2 = h)) := by
        rw [List.filter_cons, if_neg (by simp [he])]
      rw [hfc]

theorem reverseI_char (I : Index) (h : String) :
    lookupA h (reverseI I)
      = if ((leaves I).filter (fun e => decide (e.2 = h))).isEmpty then none
        else some (((leaves I).filter (fun e => decide (e.2 = h))).map Prod.fst) := by
  rw [reverseI, foldl_appendBucketP_char]
  rfl

theorem fdedupOne_fst (I : Index) (c : Change) : (fdedupOne I c).1 = c := by
  cases c <;> try rfl
  case Removed p e =>
    cases e with
    | str h =>
      unfold fdedupOne
      cases hl : lookupA h (reverseI I) <;> simp [hl]
    | sub i => rfl

/-- C9: the on-demand reverse map associates each checksum with exactly the
paths recording it, `find_deduplications` leaves the change list itself intact,
every annotation it attaches to a surviving `Removed(p, h)` lists exactly the
other paths under which `h` appears in the current index, and every surviving
`Removed(p, h)` whose checksum appears under another path does get an
annotation. -/
theorem find_deduplications_spec (I : Index) (changes : List Change) :
    (∀ h p, (∃ l, lookupA h (reverseI I) = some l ∧ p ∈ l) ↔ (p, h) ∈ leaves I)
    ∧ (find_deduplications I changes).map Prod.fst = changes
    ∧ (∀ p h dups,
        (Change.Removed p (.str h), some dups) ∈ find_deduplications I changes →
        ∀ q, q ∈ dups ↔ ((q, h) ∈ leaves I ∧ q ≠ p))
    ∧ (∀ p h, Change.Removed p (.str h) ∈ changes →
        (∃ q, (q, h) ∈ leaves I ∧ q ≠ p) →
        ∃ dups, (Change.Removed p (.str h), some dups)
          ∈ find_deduplications I changes) := by
  have hA : ∀ h p, (∃ l, lookupA h (reverseI I) = some l ∧ p ∈ l)
      ↔ (p, h) ∈ leaves I := by
    intro h p
    rw [reverseI_char]
    by_cases he : ((leaves I).filter (fun e => decide (e.2 = h))).isEmpty
    · rw [if_pos he]
      constructor
      · rintro ⟨l, hl, _⟩
        cases hl
      · intro hm
        exfalso
        rw [List.isEmpty_iff] at he
        have hpm : (p, h) ∈ (leaves I).filter (fun e => decide (e.2 = h)) :=
          List.mem_filter.mpr ⟨hm, by simp⟩
        rw [he] at hpm
        cases hpm
    · rw [if_neg he]
      constructor
      · rintro ⟨l, hl, hpl⟩
        injection hl with hl
        subst hl
        obtain ⟨e, hef, hep⟩ := List.mem_map.mp hpl
        obtain ⟨hel, he2⟩ := List.mem_filter.mp hef
        obtain ⟨e1, e2⟩ := e
        simp only [decide_eq_true_eq] at he2
        dsimp only at hep he2
        rw [← hep, ← he2]
        exact hel
      · intro hm
        exact ⟨_, rfl, List.mem_map.mpr ⟨(p, h),
          List.mem_filter.mpr ⟨hm, by simp⟩, rfl⟩⟩
  refine ⟨hA, ?_, ?_, ?_⟩
  · rw [find_deduplications, List.map_map]
    have hid : (Prod.fst ∘ fdedupOne I) = id := funext (fun c => fdedupOne_fst I c)
    rw [hid, List.map_id]
  · intro p h dups hmem q
    obtain ⟨c, hc, hfc⟩ := List.mem_map.mp hmem
    have hc1 : c = Change.Removed p (.str h) := by
      rw [← fdedupOne_fst I c, hfc]
    subst hc1
    cases hl : lookupA h (reverseI I) with
    | none => simp [fdedupOne, hl] at hfc
    | some paths =>
      have hdups : paths.filter (fun r => decide (r ≠ p)) = dups := by
        simpa [fdedupOne, hl] using hfc
      have hqp : ∀ r, r ∈ paths ↔ (r, h) ∈ leaves I := by
        intro r
        constructor
        · intro hr
          exact (hA h r).mp ⟨paths, hl, hr⟩
        · intro hr
          obtain ⟨l, hl', hrl⟩ := (hA h r).mpr hr
          rw [hl] at hl'
          injection hl' with hl'
          rw [hl']
          exact hrl
      rw [← hdups]
      rw [List.mem_filter]
      simp [hqp q]
  · intro p h hmem hex
    obtain ⟨q, hq, hqp⟩ := hex
    obtain ⟨paths, hl, _⟩ := (hA h q).mpr hq
    refine ⟨paths.filter (fun r => decide (r ≠ p)), ?_⟩
    have heq : fdedupOne I (.Removed p (.str h))
        = (.Removed p (.str h), some (paths.filter (fun r => decide (r ≠ p)))) := by
      simp [fdedupOne, hl]
    have hx := List.mem_map_of_mem (fdedupOne I) hmem
    rw [heq] at hx
    exact hx

end Dintact
